import Mathlib

/-!
Verification of the woven-mosaic raster transform.

The development shallowly embeds the repository's image-processing core:

* the deterministic hash `pseudoRandom`,
* the per-pattern shift-factor table `getShiftFactors`,
* the tile destination pipeline (toroidal wrap, scatter jump),
* the seam-aware composite `drawWrapped` and the full `renderWeave` pass,
* the per-frame parameter interpolator (`lerp` / `lerpStep`).

Coordinates and configuration values are embedded as exact rationals
(the source manipulates IEEE numbers with field operations and
`Math.floor`; all claims under study are about the exact arithmetic).
`Math.sin` is an uninterpreted parameter `sinF : Rat -> Rat`, since no
claim depends on its values.  A canvas is embedded as a pixel-sample
function `Rat -> Rat -> Nat`; `drawImage` at integral coordinates is
exact pixel copying, which is the regime of the pixel-content claims.
-/

/-- The four weave styles of the source type `WeavePattern`. -/
inductive WeavePattern : Type
  | plain
  | twill
  | satin
  | basket
deriving DecidableEq, Repr

/-- The source configuration record `ProcessorSettings`. -/
structure ProcessorSettings : Type where
  tileSize : ℚ
  horizontalShift : ℚ
  verticalShift : ℚ
  scatterIntensity : ℚ
  pattern : WeavePattern
  opacity : ℚ
  seed : ℚ
deriving DecidableEq, Repr

/-- Shift-factor table of the engine (`getShiftFactors` in the source).
Tile indices are the loop counters, hence natural numbers; `%` and
`Math.floor(n / 2)` on non-negative integers are `Nat.mod` / `Nat.div`. -/
def getShiftFactors (xIndex yIndex : ℕ) (pattern : WeavePattern) : ℚ × ℚ :=
  match pattern with
  | .plain =>
      (if yIndex % 2 = 0 then 1 else -1,
       if xIndex % 2 = 0 then 1 else -1)
  | .twill =>
      ((((yIndex % 4 : ℕ) : ℚ) - 1.5) * 1.5,
       (((xIndex % 4 : ℕ) : ℚ) - 1.5) * 1.5)
  | .satin =>
      ((((yIndex * 3) % 5 : ℕ) : ℚ) - 2,
       (((xIndex * 3) % 5 : ℕ) : ℚ) - 2)
  | .basket =>
      (if (yIndex / 2) % 2 = 0 then 1 else -1,
       if (xIndex / 2) % 2 = 0 then 1 else -1)

/-- The specification's shift-factor table, written from the spec's own
formulas (`col` is the horizontal tile index, `row` the vertical one):
plain `row%2==0 ? 1 : -1` / `col%2==0 ? 1 : -1`;
twill `((row%4)-1.5)*1.5` / `((col%4)-1.5)*1.5`;
satin `((row*3)%5)-2` / `((col*3)%5)-2`;
basket `floor(row/2)%2==0 ? 1 : -1` / `floor(col/2)%2==0 ? 1 : -1`. -/
def specShiftFactors (col row : ℕ) (pattern : WeavePattern) : ℚ × ℚ :=
  match pattern with
  | .plain =>
      (if row % 2 = 0 then 1 else -1,
       if col % 2 = 0 then 1 else -1)
  | .twill =>
      ((((row % 4 : ℕ) : ℚ) - 1.5) * 1.5,
       (((col % 4 : ℕ) : ℚ) - 1.5) * 1.5)
  | .satin =>
      ((((row * 3) % 5 : ℕ) : ℚ) - 2,
       (((col * 3) % 5 : ℕ) : ℚ) - 2)
  | .basket =>
      (if (row / 2) % 2 = 0 then 1 else -1,
       if (col / 2) % 2 = 0 then 1 else -1)

/-- Truncation toward zero, the rounding used by the JavaScript `%`
operator on numbers. -/
def jsTrunc (q : ℚ) : ℤ :=
  if 0 ≤ q then ⌊q⌋ else ⌈q⌉

/-- The JavaScript remainder operator `%` on numbers: the remainder has
the sign of the dividend. -/
def jsMod (a b : ℚ) : ℚ :=
  a - b * jsTrunc (a / b)

/-- Toroidal wrap `((v % w) + w) % w`, as in the source's
`destX = ((destX % width) + width) % width`. -/
def wrapCoord (v w : ℚ) : ℚ :=
  jsMod (jsMod v w + w) w

lemma jsMod_eq_add_int (a b : ℚ) : ∃ m : ℤ, jsMod a b = a + (m : ℚ) * b := by
  refine ⟨-jsTrunc (a / b), ?_⟩
  simp [jsMod]
  ring

lemma jsMod_bounds_of_nonneg (a b : ℚ) (hb : 0 < b) (ha : 0 ≤ a) :
    0 ≤ jsMod a b ∧ jsMod a b < b := by
  have hdiv : 0 ≤ a / b := div_nonneg ha hb.le
  have htr : jsTrunc (a / b) = ⌊a / b⌋ := if_pos hdiv
  have hab : b * (a / b) = a := mul_div_cancel₀ a hb.ne'
  have hfr : jsMod a b = b * Int.fract (a / b) := by
    rw [jsMod, htr, Int.fract]
    rw [mul_sub, hab]
  constructor
  · rw [hfr]
    exact mul_nonneg hb.le (Int.fract_nonneg _)
  · rw [hfr]
    calc b * Int.fract (a / b) < b * 1 :=
          (mul_lt_mul_left hb).mpr (Int.fract_lt_one _)
    _ = b := mul_one b

lemma jsMod_bounds_of_neg (a b : ℚ) (hb : 0 < b) (ha : a < 0) :
    -b < jsMod a b ∧ jsMod a b ≤ 0 := by
  have hdiv : a / b < 0 := div_neg_of_neg_of_pos ha hb
  have htr : jsTrunc (a / b) = ⌈a / b⌉ := if_neg (not_le.mpr hdiv)
  have hab : b * (a / b) = a := mul_div_cancel₀ a hb.ne'
  have h1 : (⌈a / b⌉ : ℚ) - 1 < a / b := by
    have := Int.ceil_lt_add_one (a / b)
    linarith
  have h2 : a / b ≤ (⌈a / b⌉ : ℚ) := Int.le_ceil _
  have hval : jsMod a b = b * (a / b - ⌈a / b⌉) := by
    rw [jsMod, htr, mul_sub, hab]
  constructor
  · rw [hval]
    have : (-1 : ℚ) < a / b - ⌈a / b⌉ := by linarith
    nlinarith
  · rw [hval]
    have : a / b - (⌈a / b⌉ : ℚ) ≤ 0 := by linarith
    exact mul_nonpos_of_nonneg_of_nonpos hb.le this

lemma jsMod_abs_lt (a b : ℚ) (hb : 0 < b) : -b < jsMod a b ∧ jsMod a b < b := by
  rcases le_or_lt 0 a with ha | ha
  · have h := jsMod_bounds_of_nonneg a b hb ha
    exact ⟨by linarith [h.1], h.2⟩
  · have h := jsMod_bounds_of_neg a b hb ha
    exact ⟨h.1, by linarith [h.2]⟩

lemma wrapCoord_bounds (v w : ℚ) (hw : 0 < w) :
    0 ≤ wrapCoord v w ∧ wrapCoord v w < w := by
  have h := jsMod_abs_lt v w hw
  have hpos : 0 ≤ jsMod v w + w := by linarith [h.1]
  exact jsMod_bounds_of_nonneg (jsMod v w + w) w hw hpos

lemma wrapCoord_eq_add_int (v w : ℚ) : ∃ m : ℤ, wrapCoord v w = v + (m : ℚ) * w := by
  obtain ⟨m₁, h₁⟩ := jsMod_eq_add_int v w
  obtain ⟨m₂, h₂⟩ := jsMod_eq_add_int (jsMod v w + w) w
  refine ⟨m₁ + 1 + m₂, ?_⟩
  rw [wrapCoord, h₂, h₁]
  push_cast
  ring

lemma offset_unique (w x y : ℚ) (hw : 0 < w) (m : ℤ) (hxy : x = y + (m : ℚ) * w)
    (hx0 : 0 ≤ x) (hxw : x < w) (hy0 : 0 ≤ y) (hyw : y < w) : x = y := by
  have hm0 : m = 0 := by
    by_contra hne
    rcases lt_or_gt_of_ne hne with hlt | hgt
    · have hmz : m ≤ -1 := by omega
      have hm : (m : ℚ) ≤ -1 := by exact_mod_cast hmz
      have : (m : ℚ) * w ≤ -1 * w := by
        apply mul_le_mul_of_nonneg_right hm hw.le
      linarith
    · have hm : (1 : ℚ) ≤ (m : ℚ) := by exact_mod_cast hgt
      have : 1 * w ≤ (m : ℚ) * w := by
        apply mul_le_mul_of_nonneg_right hm hw.le
      linarith
  rw [hxy, hm0]
  simp

lemma int_emod_decomp (n W : ℤ) : n % W = n - W * (n / W) := Int.emod_def n W

lemma wrapCoord_eq_self (v w : ℚ) (hw : 0 < w) (h0 : 0 ≤ v) (hvw : v < w) :
    wrapCoord v w = v := by
  obtain ⟨m, hm⟩ := wrapCoord_eq_add_int v w
  obtain ⟨hb0, hbw⟩ := wrapCoord_bounds v w hw
  exact offset_unique w (wrapCoord v w) v hw m hm hb0 hbw h0 hvw

lemma wrapCoord_intCast (n : ℤ) (W : ℕ) (hW : 0 < W) :
    wrapCoord (n : ℚ) (W : ℚ) = ((n % W : ℤ) : ℚ) := by
  have hWQ : (0 : ℚ) < (W : ℚ) := by exact_mod_cast hW
  have hWZ : (W : ℤ) ≠ 0 := by exact_mod_cast hW.ne'
  obtain ⟨m, hm⟩ := wrapCoord_eq_add_int (n : ℚ) (W : ℚ)
  obtain ⟨hb0, hbw⟩ := wrapCoord_bounds (n : ℚ) (W : ℚ) hWQ
  have he0 : (0 : ℚ) ≤ ((n % W : ℤ) : ℚ) := by
    exact_mod_cast Int.emod_nonneg n hWZ
  have heW : ((n % W : ℤ) : ℚ) < (W : ℚ) := by
    exact_mod_cast Int.emod_lt_of_pos n (by exact_mod_cast hW)
  have hdecomp : ((n % W : ℤ) : ℚ) = (n : ℚ) + (-(n / W) : ℤ) * (W : ℚ) := by
    rw [int_emod_decomp n W]
    push_cast
    ring
  have h2 : wrapCoord (n : ℚ) (W : ℚ) = ((n % W : ℤ) : ℚ) + ((m + n / W : ℤ) : ℚ) * (W : ℚ) := by
    rw [hm, hdecomp]
    push_cast
    ring
  exact offset_unique (W : ℚ) _ _ hWQ (m + n / W) h2 hb0 hbw he0 heW

lemma jsMod_intCast_of_nonneg (n : ℤ) (hn : 0 ≤ n) (W : ℕ) (hW : 0 < W) :
    jsMod (n : ℚ) (W : ℚ) = ((n % W : ℤ) : ℚ) := by
  have hWQ : (0 : ℚ) < (W : ℚ) := by exact_mod_cast hW
  have hWZ : (W : ℤ) ≠ 0 := by exact_mod_cast hW.ne'
  obtain ⟨hb0, hbw⟩ := jsMod_bounds_of_nonneg (n : ℚ) (W : ℚ) hWQ (by exact_mod_cast hn)
  obtain ⟨m, hm⟩ := jsMod_eq_add_int (n : ℚ) (W : ℚ)
  have he0 : (0 : ℚ) ≤ ((n % W : ℤ) : ℚ) := by
    exact_mod_cast Int.emod_nonneg n hWZ
  have heW : ((n % W : ℤ) : ℚ) < (W : ℚ) := by
    exact_mod_cast Int.emod_lt_of_pos n (by exact_mod_cast hW)
  have hdecomp : ((n % W : ℤ) : ℚ) = (n : ℚ) + (-(n / W) : ℤ) * (W : ℚ) := by
    rw [int_emod_decomp n W]
    push_cast
    ring
  have h2 : jsMod (n : ℚ) (W : ℚ) = ((n % W : ℤ) : ℚ) + ((m + n / W : ℤ) : ℚ) * (W : ℚ) := by
    rw [hm, hdecomp]
    push_cast
    ring
  exact offset_unique (W : ℚ) _ _ hWQ (m + n / W) h2 hb0 hbw he0 heW

/-- C1: for every tile index and every pattern, the engine's
`getShiftFactors` agrees with the specification's shift-factor table,
and, being a function of the tile index and pattern alone, is
independent of the shift magnitudes. -/
theorem getShiftFactors_matches_spec (col row : ℕ) (pattern : WeavePattern) :
    getShiftFactors col row pattern = specShiftFactors col row pattern := by
  cases pattern <;> rfl

/-- C2: the engine's pre-scatter destination coordinate is
`((src + shift) % width + width) % width` (this is `wrapCoord`), and for
every real source coordinate and shift — negative included — it lies in
`[0, width)`: the wrap never moves a tile off the raster. -/
theorem wrapCoord_formula_and_bounds (srcX shiftX width : ℚ) (hw : 0 < width) :
    wrapCoord (srcX + shiftX) width
        = jsMod (jsMod (srcX + shiftX) width + width) width
      ∧ 0 ≤ wrapCoord (srcX + shiftX) width
      ∧ wrapCoord (srcX + shiftX) width < width := by
  refine ⟨rfl, ?_, ?_⟩
  · exact (wrapCoord_bounds _ _ hw).1
  · exact (wrapCoord_bounds _ _ hw).2

/-- Witness for C2 at a concrete negative displacement. -/
theorem wrapCoord_formula_and_bounds_witness :
    (0 : ℚ) < 100
      ∧ (wrapCoord ((30 : ℚ) + (-250)) 100
          = jsMod (jsMod ((30 : ℚ) + (-250)) 100 + 100) 100
        ∧ 0 ≤ wrapCoord ((30 : ℚ) + (-250)) 100
        ∧ wrapCoord ((30 : ℚ) + (-250)) 100 < 100) :=
  ⟨by norm_num, wrapCoord_formula_and_bounds 30 (-250) 100 (by norm_num)⟩

/-- The deterministic hash of the source (`pseudoRandom`):
`frac(sin(x*12.9898 + y*78.233 + seed) * 43758.5453)`.  `Math.sin` is
the uninterpreted parameter `sinF`. -/
def pseudoRandom (sinF : ℚ → ℚ) (x y seed : ℚ) : ℚ :=
  let v := sinF (x * 12.9898 + y * 78.233 + seed) * 43758.5453
  v - ⌊v⌋

lemma pseudoRandom_mem (sinF : ℚ → ℚ) (x y seed : ℚ) :
    0 ≤ pseudoRandom sinF x y seed ∧ pseudoRandom sinF x y seed < 1 := by
  unfold pseudoRandom
  constructor
  · have := Int.floor_le (sinF (x * 12.9898 + y * 78.233 + seed) * 43758.5453)
    linarith
  · have := Int.lt_floor_add_one (sinF (x * 12.9898 + y * 78.233 + seed) * 43758.5453)
    linarith

/-- Pre-scatter tile destination (stage 1 of the per-tile loop):
source origin plus pattern-modulated shift, wrapped toroidally. -/
def tilePreDest (s : ProcessorSettings) (W H : ℕ) (ts : ℚ) (x y : ℕ) : ℚ × ℚ :=
  let f := getShiftFactors x y s.pattern
  (wrapCoord ((x : ℚ) * ts + s.horizontalShift * f.1) (W : ℚ),
   wrapCoord ((y : ℚ) * ts + s.verticalShift * f.2) (H : ℚ))

/-- Scatter stage (stage 2 of the per-tile loop): if the tile's hash is
below `scatterIntensity / 100`, jump one tile size right or down
depending on `(hash * 10) % 2 < 1`. -/
def tileScatter (s : ProcessorSettings) (W H : ℕ) (ts : ℚ) (sinF : ℚ → ℚ)
    (x y : ℕ) (d : ℚ × ℚ) : ℚ × ℚ :=
  let hash := pseudoRandom sinF (x : ℚ) (y : ℚ) s.seed
  if hash < s.scatterIntensity / 100 then
    if jsMod (hash * 10) 2 < 1 then (jsMod (d.1 + ts) (W : ℚ), d.2)
    else (d.1, jsMod (d.2 + ts) (H : ℚ))
  else d

/-- C3: the hash always lies in `[0,1)`; a tile is scattered exactly when
`hash < scatterIntensity/100`; a qualifying tile jumps right
(`destX := (destX + tileSize) % width`) when `(hash*10) % 2 < 1` and down
(`destY := (destY + tileSize) % height`) otherwise — one axis only, never
both; and at `scatterIntensity = 100` every tile qualifies. -/
theorem scatter_decision_spec (sinF : ℚ → ℚ) (s : ProcessorSettings)
    (W H : ℕ) (ts : ℚ) (x y : ℕ) (d : ℚ × ℚ) :
    (0 ≤ pseudoRandom sinF (x : ℚ) (y : ℚ) s.seed
        ∧ pseudoRandom sinF (x : ℚ) (y : ℚ) s.seed < 1)
      ∧ (¬ pseudoRandom sinF (x : ℚ) (y : ℚ) s.seed < s.scatterIntensity / 100 →
          tileScatter s W H ts sinF x y d = d)
      ∧ (pseudoRandom sinF (x : ℚ) (y : ℚ) s.seed < s.scatterIntensity / 100 →
          (jsMod (pseudoRandom sinF (x : ℚ) (y : ℚ) s.seed * 10) 2 < 1
              ∧ tileScatter s W H ts sinF x y d = (jsMod (d.1 + ts) (W : ℚ), d.2))
          ∨ (¬ jsMod (pseudoRandom sinF (x : ℚ) (y : ℚ) s.seed * 10) 2 < 1
              ∧ tileScatter s W H ts sinF x y d = (d.1, jsMod (d.2 + ts) (H : ℚ))))
      ∧ (s.scatterIntensity = 100 →
          pseudoRandom sinF (x : ℚ) (y : ℚ) s.seed < s.scatterIntensity / 100) := by
  refine ⟨pseudoRandom_mem sinF x y s.seed, ?_, ?_, ?_⟩
  · intro hmiss
    unfold tileScatter
    simp only [if_neg hmiss]
  · intro hhit
    by_cases hdir : jsMod (pseudoRandom sinF (x : ℚ) (y : ℚ) s.seed * 10) 2 < 1
    · left
      refine ⟨hdir, ?_⟩
      unfold tileScatter
      simp only [if_pos hhit, if_pos hdir]
    · right
      refine ⟨hdir, ?_⟩
      unfold tileScatter
      simp only [if_pos hhit, if_neg hdir]
  · intro h100
    rw [h100]
    norm_num
    exact (pseudoRandom_mem sinF x y s.seed).2

/-- Witness for C3 at `scatterIntensity = 100`: the tile qualifies, the
direction is `right`, and only the x-axis moves, by one tile size mod
width. -/
theorem scatter_decision_spec_witness :
    tileScatter ⟨50, 10, 10, 100, WeavePattern.plain, 100, 0⟩ 100 100 50
        (fun _ => 0) 0 0 (30, 40) = (jsMod 80 100, 40) := by
  have h := (scatter_decision_spec (fun _ => 0)
      ⟨50, 10, 10, 100, WeavePattern.plain, 100, 0⟩ 100 100 50 0 0 (30, 40)).2.2.1
      (by norm_num [pseudoRandom])
  rcases h with ⟨hdir, heq⟩ | ⟨hdir, heq⟩
  · rw [heq]
    norm_num
  · exfalso
    apply hdir
    norm_num [pseudoRandom, jsMod, jsTrunc]

/-- A canvas, as a pixel-sample function.  The engine only ever reads and
writes it at the points the claims quantify over. -/
abbrev Canvas : Type := ℚ → ℚ → ℕ

/-- A fully cleared canvas (`clearRect(0, 0, width, height)`). -/
def clearCanvas : Canvas := fun _ _ => 0

/-- `ctx.drawImage(src, sx, sy, w, h, dx, dy, w, h)` on a `W × H` canvas:
inside the destination rectangle and the canvas bounds the destination
pixel takes the source sample at the matching offset; everywhere else the
canvas is unchanged. -/
def drawImage (dst src : Canvas) (W H : ℕ) (sx sy w h dx dy : ℚ) : Canvas :=
  fun p q =>
    if dx ≤ p ∧ p < dx + w ∧ dy ≤ q ∧ q < dy + h
        ∧ 0 ≤ p ∧ p < (W : ℚ) ∧ 0 ≤ q ∧ q < (H : ℚ) then
      src (sx + (p - dx)) (sy + (q - dy))
    else dst p q

/-- One candidate placement of the wrapping composite: draw at
`(px, py)` only when its rectangle overlaps the visible bounds
(`pos.x + w > 0 && pos.x < width && pos.y + h > 0 && pos.y < height`). -/
def drawCand (tmp : Canvas) (W H : ℕ) (sx sy w h : ℚ) (c : Canvas)
    (px py : ℚ) : Canvas :=
  if 0 < px + w ∧ px < (W : ℚ) ∧ 0 < py + h ∧ py < (H : ℚ) then
    drawImage c tmp W H sx sy w h px py
  else c

/-- The source's `drawWrapped`: a direct copy when the destination
rectangle fits the raster, else the four candidate placements at offsets
`{0, -width} × {0, -height}`, tried in the source's order. -/
def drawWrapped (ctx tmp : Canvas) (W H : ℕ) (sx sy w h dx dy : ℚ) : Canvas :=
  if dx + w ≤ (W : ℚ) ∧ dy + h ≤ (H : ℚ) then
    drawImage ctx tmp W H sx sy w h dx dy
  else
    List.foldl (fun c pos => drawCand tmp W H sx sy w h c pos.1 pos.2) ctx
      [(dx, dy), (dx - (W : ℚ), dy), (dx, dy - (H : ℚ)), (dx - (W : ℚ), dy - (H : ℚ))]

/-- Along one axis of length `len`, the wrapped tile starting at `d` with
extent `e` covers coordinate `p` either directly or through the
`-len` copy. -/
def covers (len : ℕ) (d e p : ℚ) : Prop :=
  (d ≤ p ∧ p < d + e) ∨ (d ≤ p + (len : ℚ) ∧ p + (len : ℚ) < d + e)

instance (len : ℕ) (d e p : ℚ) : Decidable (covers len d e p) := by
  unfold covers
  infer_instance

/-- Offset of a covered coordinate inside the tile (which of the two
candidate copies reached it). -/
def srcOff (len : ℕ) (d p : ℚ) : ℚ :=
  if d ≤ p then p - d else p - d + (len : ℕ)

lemma drawCand_apply (tmp : Canvas) (W H : ℕ) (sx sy w h : ℚ) (c : Canvas)
    (px py p q : ℚ) (hp0 : 0 ≤ p) (hpW : p < (W : ℚ)) (hq0 : 0 ≤ q)
    (hqH : q < (H : ℚ)) :
    drawCand tmp W H sx sy w h c px py p q =
      if px ≤ p ∧ p < px + w ∧ py ≤ q ∧ q < py + h then
        tmp (sx + (p - px)) (sy + (q - py))
      else c p q := by
  unfold drawCand drawImage
  by_cases hg : 0 < px + w ∧ px < (W : ℚ) ∧ 0 < py + h ∧ py < (H : ℚ)
  · rw [if_pos hg]
    by_cases hr : px ≤ p ∧ p < px + w ∧ py ≤ q ∧ q < py + h
    · rw [if_pos ⟨hr.1, hr.2.1, hr.2.2.1, hr.2.2.2, hp0, hpW, hq0, hqH⟩, if_pos hr]
    · rw [if_neg ?_, if_neg hr]
      intro hc
      exact hr ⟨hc.1, hc.2.1, hc.2.2.1, hc.2.2.2.1⟩
  · rw [if_neg hg, if_neg ?_]
    push_neg at hg
    intro hr
    rcases le_or_lt (px + w) 0 with hx | hx
    · linarith [hr.2.1]
    rcases le_or_lt (W : ℚ) px with hx2 | hx2
    · linarith [hr.1]
    rcases le_or_lt (py + h) 0 with hy | hy
    · linarith [hr.2.2.2]
    · linarith [hr.2.2.1, hg hx hx2 hy]

lemma covers_not_both (len : ℕ) (d e p : ℚ) (he : e ≤ (len : ℚ)) (hd : 0 ≤ d) :
    ¬ ((d ≤ p ∧ p < d + e) ∧ (d ≤ p + (len : ℚ) ∧ p + (len : ℚ) < d + e)) := by
  rintro ⟨⟨h1, _⟩, ⟨_, h4⟩⟩
  linarith

lemma drawWrapped_apply (ctx tmp : Canvas) (W H : ℕ) (sx sy w h dx dy p q : ℚ)
    (hdx0 : 0 ≤ dx) (hdxW : dx < (W : ℚ)) (hdy0 : 0 ≤ dy) (hdyH : dy < (H : ℚ))
    (hw0 : 0 < w) (hwW : w ≤ (W : ℚ)) (hh0 : 0 < h) (hhH : h ≤ (H : ℚ))
    (hp0 : 0 ≤ p) (hpW : p < (W : ℚ)) (hq0 : 0 ≤ q) (hqH : q < (H : ℚ)) :
    drawWrapped ctx tmp W H sx sy w h dx dy p q =
      if covers W dx w p ∧ covers H dy h q then
        tmp (sx + srcOff W dx p) (sy + srcOff H dy q)
      else ctx p q := by
  have hXboth := covers_not_both W dx w p hwW hdx0
  have hYboth := covers_not_both H dy h q hhH hdy0
  unfold drawWrapped
  by_cases hfit : dx + w ≤ (W : ℚ) ∧ dy + h ≤ (H : ℚ)
  · rw [if_pos hfit]
    unfold drawImage
    by_cases hr : dx ≤ p ∧ p < dx + w ∧ dy ≤ q ∧ q < dy + h
    · rw [if_pos ⟨hr.1, hr.2.1, hr.2.2.1, hr.2.2.2, hp0, hpW, hq0, hqH⟩]
      rw [if_pos ⟨Or.inl ⟨hr.1, hr.2.1⟩, Or.inl ⟨hr.2.2.1, hr.2.2.2⟩⟩]
      rw [srcOff, if_pos hr.1, srcOff, if_pos hr.2.2.1]
    · rw [if_neg ?side, if_neg ?main]
      case main =>
        rintro ⟨hcx, hcy⟩
        apply hr
        rcases hcx with hcx | hcx
        · rcases hcy with hcy | hcy
          · exact ⟨hcx.1, hcx.2, hcy.1, hcy.2⟩
          · exfalso; linarith [hcy.2, hfit.2]
        · exfalso; linarith [hcx.2, hfit.1]
      case side =>
        intro hc
        exact hr ⟨hc.1, hc.2.1, hc.2.2.1, hc.2.2.2.1⟩
  · rw [if_neg hfit]
    simp only [List.foldl_cons, List.foldl_nil]
    rw [drawCand_apply tmp W H sx sy w h _ _ _ p q hp0 hpW hq0 hqH]
    rw [drawCand_apply tmp W H sx sy w h _ _ _ p q hp0 hpW hq0 hqH]
    rw [drawCand_apply tmp W H sx sy w h _ _ _ p q hp0 hpW hq0 hqH]
    rw [drawCand_apply tmp W H sx sy w h _ _ _ p q hp0 hpW hq0 hqH]
    by_cases hX1 : dx ≤ p ∧ p < dx + w
    case pos =>
      have hX2n : ¬ (dx - (W : ℚ) ≤ p ∧ p < dx - (W : ℚ) + w) := by
        rintro ⟨_, hb⟩
        linarith [hX1.1]
      have hcovX : covers W dx w p := Or.inl hX1
      by_cases hY1 : dy ≤ q ∧ q < dy + h
      case pos =>
        have c2n : ¬ (dx - (W : ℚ) ≤ p ∧ p < dx - (W : ℚ) + w ∧ dy ≤ q ∧ q < dy + h) := by
          rintro ⟨ha, hb, _, _⟩
          exact hX2n ⟨ha, hb⟩
        have c3n : ¬ (dx ≤ p ∧ p < dx + w ∧ dy - (H : ℚ) ≤ q ∧ q < dy - (H : ℚ) + h) := by
          rintro ⟨_, _, _, hd⟩
          linarith [hY1.1]
        have c4n : ¬ (dx - (W : ℚ) ≤ p ∧ p < dx - (W : ℚ) + w ∧ dy - (H : ℚ) ≤ q ∧ q < dy - (H : ℚ) + h) := by
          rintro ⟨ha, hb, _, _⟩
          exact hX2n ⟨ha, hb⟩
        rw [if_neg c4n, if_neg c3n, if_neg c2n,
            if_pos ⟨hX1.1, hX1.2, hY1.1, hY1.2⟩,
            if_pos ⟨hcovX, Or.inl hY1⟩]
        simp only [srcOff]
        rw [if_pos hX1.1, if_pos hY1.1]
      case neg =>
        by_cases hY2 : dy - (H : ℚ) ≤ q ∧ q < dy - (H : ℚ) + h
        case pos =>
          have hqlt : ¬ dy ≤ q := by
            intro hc
            exact hY1 ⟨hc, by linarith [hY2.2, hhH]⟩
          have c1n : ¬ (dx ≤ p ∧ p < dx + w ∧ dy ≤ q ∧ q < dy + h) := by
            rintro ⟨_, _, hc, _⟩
            exact hqlt hc
          have c2n : ¬ (dx - (W : ℚ) ≤ p ∧ p < dx - (W : ℚ) + w ∧ dy ≤ q ∧ q < dy + h) := by
            rintro ⟨_, _, hc, _⟩
            exact hqlt hc
          have c4n : ¬ (dx - (W : ℚ) ≤ p ∧ p < dx - (W : ℚ) + w ∧ dy - (H : ℚ) ≤ q ∧ q < dy - (H : ℚ) + h) := by
            rintro ⟨ha, hb, _, _⟩
            exact hX2n ⟨ha, hb⟩
          have hcovY : covers H dy h q :=
            Or.inr ⟨by linarith [hY2.1], by linarith [hY2.2]⟩
          rw [if_neg c4n, if_pos ⟨hX1.1, hX1.2, hY2.1, hY2.2⟩,
              if_pos ⟨hcovX, hcovY⟩]
          simp only [srcOff]
          rw [if_pos hX1.1, if_neg hqlt]
          ring_nf
        case neg =>
          have hcovYn : ¬ covers H dy h q := by
            rintro (hc | hc)
            · exact hY1 hc
            · exact hY2 ⟨by linarith [hc.1], by linarith [hc.2]⟩
          have c1n : ¬ (dx ≤ p ∧ p < dx + w ∧ dy ≤ q ∧ q < dy + h) := by
            rintro ⟨_, _, hc, hd⟩
            exact hY1 ⟨hc, hd⟩
          have c2n : ¬ (dx - (W : ℚ) ≤ p ∧ p < dx - (W : ℚ) + w ∧ dy ≤ q ∧ q < dy + h) := by
            rintro ⟨_, _, hc, hd⟩
            exact hY1 ⟨hc, hd⟩
          have c3n : ¬ (dx ≤ p ∧ p < dx + w ∧ dy - (H : ℚ) ≤ q ∧ q < dy - (H : ℚ) + h) := by
            rintro ⟨_, _, hc, hd⟩
            exact hY2 ⟨hc, hd⟩
          have c4n : ¬ (dx - (W : ℚ) ≤ p ∧ p < dx - (W : ℚ) + w ∧ dy - (H : ℚ) ≤ q ∧ q < dy - (H : ℚ) + h) := by
            rintro ⟨_, _, hc, hd⟩
            exact hY2 ⟨hc, hd⟩
          rw [if_neg c4n, if_neg c3n, if_neg c2n, if_neg c1n,
              if_neg (fun hcc => hcovYn hcc.2)]
    case neg =>
      by_cases hX2 : dx - (W : ℚ) ≤ p ∧ p < dx - (W : ℚ) + w
      case pos =>
        have hplt : ¬ dx ≤ p := by
          intro hc
          exact hX1 ⟨hc, by linarith [hX2.2, hwW]⟩
        have hcovX : covers W dx w p :=
          Or.inr ⟨by linarith [hX2.1], by linarith [hX2.2]⟩
        by_cases hY1 : dy ≤ q ∧ q < dy + h
        case pos =>
          have c1n : ¬ (dx ≤ p ∧ p < dx + w ∧ dy ≤ q ∧ q < dy + h) := by
            rintro ⟨ha, _, _, _⟩
            exact hplt ha
          have c3n : ¬ (dx ≤ p ∧ p < dx + w ∧ dy - (H : ℚ) ≤ q ∧ q < dy - (H : ℚ) + h) := by
            rintro ⟨ha, _, _, _⟩
            exact hplt ha
          have c4n : ¬ (dx - (W : ℚ) ≤ p ∧ p < dx - (W : ℚ) + w ∧ dy - (H : ℚ) ≤ q ∧ q < dy - (H : ℚ) + h) := by
            rintro ⟨_, _, _, hd⟩
            linarith [hY1.1]
          rw [if_neg c4n, if_neg c3n,
              if_pos ⟨hX2.1, hX2.2, hY1.1, hY1.2⟩,
              if_pos ⟨hcovX, Or.inl hY1⟩]
          simp only [srcOff]
          rw [if_neg hplt, if_pos hY1.1]
          ring_nf
        case neg =>
          by_cases hY2 : dy - (H : ℚ) ≤ q ∧ q < dy - (H : ℚ) + h
          case pos =>
            have hqlt : ¬ dy ≤ q := by
              intro hc
              exact hY1 ⟨hc, by linarith [hY2.2, hhH]⟩
            have hcovY : covers H dy h q :=
              Or.inr ⟨by linarith [hY2.1], by linarith [hY2.2]⟩
            rw [if_pos ⟨hX2.1, hX2.2, hY2.1, hY2.2⟩,
                if_pos ⟨hcovX, hcovY⟩]
            simp only [srcOff]
            rw [if_neg hplt, if_neg hqlt]
            ring_nf
          case neg =>
            have hcovYn : ¬ covers H dy h q := by
              rintro (hc | hc)
              · exact hY1 hc
              · exact hY2 ⟨by linarith [hc.1], by linarith [hc.2]⟩
            have c1n : ¬ (dx ≤ p ∧ p < dx + w ∧ dy ≤ q ∧ q < dy + h) := by
              rintro ⟨_, _, hc, hd⟩
              exact hY1 ⟨hc, hd⟩
            have c2n : ¬ (dx - (W : ℚ) ≤ p ∧ p < dx - (W : ℚ) + w ∧ dy ≤ q ∧ q < dy + h) := by
              rintro ⟨_, _, hc, hd⟩
              exact hY1 ⟨hc, hd⟩
            have c3n : ¬ (dx ≤ p ∧ p < dx + w ∧ dy - (H : ℚ) ≤ q ∧ q < dy - (H : ℚ) + h) := by
              rintro ⟨_, _, hc, hd⟩
              exact hY2 ⟨hc, hd⟩
            have c4n : ¬ (dx - (W : ℚ) ≤ p ∧ p < dx - (W : ℚ) + w ∧ dy - (H : ℚ) ≤ q ∧ q < dy - (H : ℚ) + h) := by
              rintro ⟨_, _, hc, hd⟩
              exact hY2 ⟨hc, hd⟩
            rw [if_neg c4n, if_neg c3n, if_neg c2n, if_neg c1n,
                if_neg (fun hcc => hcovYn hcc.2)]
      case neg =>
        have hcovXn : ¬ covers W dx w p := by
          rintro (hc | hc)
          · exact hX1 hc
          · exact hX2 ⟨by linarith [hc.1], by linarith [hc.2]⟩
        have c1n : ¬ (dx ≤ p ∧ p < dx + w ∧ dy ≤ q ∧ q < dy + h) := by
          rintro ⟨ha, hb, _, _⟩
          exact hX1 ⟨ha, hb⟩
        have c2n : ¬ (dx - (W : ℚ) ≤ p ∧ p < dx - (W : ℚ) + w ∧ dy ≤ q ∧ q < dy + h) := by
          rintro ⟨ha, hb, _, _⟩
          exact hX2 ⟨ha, hb⟩
        have c3n : ¬ (dx ≤ p ∧ p < dx + w ∧ dy - (H : ℚ) ≤ q ∧ q < dy - (H : ℚ) + h) := by
          rintro ⟨ha, hb, _, _⟩
          exact hX1 ⟨ha, hb⟩
        have c4n : ¬ (dx - (W : ℚ) ≤ p ∧ p < dx - (W : ℚ) + w ∧ dy - (H : ℚ) ≤ q ∧ q < dy - (H : ℚ) + h) := by
          rintro ⟨ha, hb, _, _⟩
          exact hX2 ⟨ha, hb⟩
        rw [if_neg c4n, if_neg c3n, if_neg c2n, if_neg c1n,
            if_neg (fun hcc => hcovXn hcc.1)]

/-- C4: if the destination rectangle fits the raster, `drawWrapped` is a
single direct copy; otherwise the draw decomposes into the four candidate
placements at offsets `{0,-width} × {0,-height}`, copying exactly the
candidates that overlap the visible bounds.  Net effect on every visible
pixel: a pixel is written iff the wrapped tile covers it, and it then
holds the tile sample at the wrapped offset — so the fragments drawn on
both sides of a seam together reconstruct the tile's pixel content. -/
theorem drawWrapped_seam_correct (ctx tmp : Canvas) (W H : ℕ)
    (sx sy w h dx dy : ℚ)
    (hdx0 : 0 ≤ dx) (hdxW : dx < (W : ℚ)) (hdy0 : 0 ≤ dy) (hdyH : dy < (H : ℚ))
    (hw0 : 0 < w) (hwW : w ≤ (W : ℚ)) (hh0 : 0 < h) (hhH : h ≤ (H : ℚ)) :
    (dx + w ≤ (W : ℚ) ∧ dy + h ≤ (H : ℚ) →
        drawWrapped ctx tmp W H sx sy w h dx dy
          = drawImage ctx tmp W H sx sy w h dx dy)
      ∧ (∀ p q : ℚ, 0 ≤ p → p < (W : ℚ) → 0 ≤ q → q < (H : ℚ) →
          drawWrapped ctx tmp W H sx sy w h dx dy p q =
            if covers W dx w p ∧ covers H dy h q then
              tmp (sx + srcOff W dx p) (sy + srcOff H dy q)
            else ctx p q) := by
  constructor
  · intro hfits
    unfold drawWrapped
    rw [if_pos hfits]
  · intro p q hp0 hpW hq0 hqH
    exact drawWrapped_apply ctx tmp W H sx sy w h dx dy p q
      hdx0 hdxW hdy0 hdyH hw0 hwW hh0 hhH hp0 hpW hq0 hqH

/-- Witness for C4: a 2×2 tile placed at (3,3) on a 4×4 raster wraps
around the corner, and pixel (0,0) receives the tile sample. -/
theorem drawWrapped_seam_correct_witness :
    drawWrapped (fun _ _ => 5) (fun _ _ => 7) 4 4 1 0 2 2 3 3 0 0 = 7 := by
  have h := (drawWrapped_seam_correct (fun _ _ => 5) (fun _ _ => 7) 4 4 1 0 2 2 3 3
      (by norm_num) (by norm_num) (by norm_num) (by norm_num)
      (by norm_num) (by norm_num) (by norm_num) (by norm_num)).2
      0 0 (by norm_num) (by norm_num) (by norm_num) (by norm_num)
  rw [h, if_pos ⟨Or.inr ⟨by norm_num, by norm_num⟩, Or.inr ⟨by norm_num, by norm_num⟩⟩]

/-- Grid extent along one dimension: the engine first clamps the tile
size (`Math.max(2, settings.tileSize)`), then takes
`Math.ceil(length / tileSize)`. -/
def gridCount (len : ℕ) (tileSize : ℚ) : ℕ :=
  (⌈(len : ℚ) / max 2 tileSize⌉).toNat

/-- The grid extent the specification describes: `ceil(length/tileSize)`
with the configuration's tile size used exactly as supplied. -/
def specGridCount (len : ℕ) (tileSize : ℚ) : ℕ :=
  (⌈(len : ℚ) / tileSize⌉).toNat

/-- Body of the per-tile loop of `renderWeave`: compute the clipped
source rectangle, the pattern shift, the wrap and the scatter, then
composite with `drawWrapped`. -/
def tileStep (tmp : Canvas) (W H : ℕ) (s : ProcessorSettings) (sinF : ℚ → ℚ)
    (ts : ℚ) (x y : ℕ) (ctx : Canvas) : Canvas :=
  let sx : ℚ := (x : ℚ) * ts
  let sy : ℚ := (y : ℚ) * ts
  let w : ℚ := min ts ((W : ℚ) - sx)
  let h : ℚ := min ts ((H : ℚ) - sy)
  let fd := tileScatter s W H ts sinF x y (tilePreDest s W H ts x y)
  drawWrapped ctx tmp W H sx sy w h fd.1 fd.2

/-- The engine's `renderWeave`, as a function from the source raster and
settings to the output canvas: clear and fill the temp buffer, take the
fast path when the effect is negligible, otherwise run the tile loop
over the clamped grid. -/
def renderWeave (img : Canvas) (W H : ℕ) (s : ProcessorSettings)
    (sinF : ℚ → ℚ) : Canvas :=
  let tmp := drawImage clearCanvas img W H 0 0 (W : ℚ) (H : ℚ) 0 0
  if |s.horizontalShift| < 0.5 ∧ |s.verticalShift| < 0.5
      ∧ s.scatterIntensity < 0.5 then
    drawImage clearCanvas img W H 0 0 (W : ℚ) (H : ℚ) 0 0
  else
    (List.range (gridCount H s.tileSize)).foldl
      (fun c y =>
        (List.range (gridCount W s.tileSize)).foldl
          (fun c2 x => tileStep tmp W H s sinF (max 2 s.tileSize) x y c2) c)
      clearCanvas

/-- C5: when `|horizontalShift| < 0.5`, `|verticalShift| < 0.5` and
`scatterIntensity < 0.5`, the render takes the fast path and the output
raster equals the unmodified source at every pixel, for any tile size,
pattern and seed. -/
theorem renderWeave_fast_path (img : Canvas) (W H : ℕ)
    (s : ProcessorSettings) (sinF : ℚ → ℚ)
    (h1 : |s.horizontalShift| < 0.5) (h2 : |s.verticalShift| < 0.5)
    (h3 : s.scatterIntensity < 0.5)
    (p q : ℚ) (hp0 : 0 ≤ p) (hpW : p < (W : ℚ)) (hq0 : 0 ≤ q)
    (hqH : q < (H : ℚ)) :
    renderWeave img W H s sinF p q = img p q := by
  unfold renderWeave
  rw [if_pos ⟨h1, h2, h3⟩]
  unfold drawImage
  rw [if_pos ⟨hp0, by linarith, hq0, by linarith, hp0, hpW, hq0, hqH⟩]
  norm_num

/-- Witness for C5: a concrete raster, negligible shifts, arbitrary
pattern and seed. -/
theorem renderWeave_fast_path_witness :
    renderWeave (fun p q => if p ≤ q then 5 else 11) 7 5
        ⟨13, 0.4, -0.4, 0.2, WeavePattern.satin, 80, 3⟩ (fun _ => 0) 2 3
      = 5 := by
  have h := renderWeave_fast_path (fun p q => if p ≤ q then 5 else 11) 7 5
      ⟨13, 0.4, -0.4, 0.2, WeavePattern.satin, 80, 3⟩ (fun _ => 0)
      (by rw [abs_lt]; constructor <;> norm_num)
      (by rw [abs_lt]; constructor <;> norm_num) (by norm_num)
      2 3 (by norm_num) (by norm_num) (by norm_num) (by norm_num)
  rw [h]
  norm_num

/-- C8: the render is a pure function of the source raster and the
consumed settings fields; in particular two configurations that agree on
everything except `opacity` produce identical output canvases, so the
output never depends on `opacity`. -/
theorem renderWeave_ignores_opacity (img : Canvas) (W H : ℕ)
    (sinF : ℚ → ℚ) (s₁ s₂ : ProcessorSettings)
    (ht : s₁.tileSize = s₂.tileSize)
    (hh : s₁.horizontalShift = s₂.horizontalShift)
    (hv : s₁.verticalShift = s₂.verticalShift)
    (hsc : s₁.scatterIntensity = s₂.scatterIntensity)
    (hpat : s₁.pattern = s₂.pattern)
    (hseed : s₁.seed = s₂.seed) :
    renderWeave img W H s₁ sinF = renderWeave img W H s₂ sinF := by
  obtain ⟨t₁, h₁, v₁, sc₁, p₁, o₁, sd₁⟩ := s₁
  obtain ⟨t₂, h₂, v₂, sc₂, p₂, o₂, sd₂⟩ := s₂
  simp only at ht hh hv hsc hpat hseed
  subst ht hh hv hsc hpat hseed
  rfl

/-- Witness for C8: two settings records differing only in opacity. -/
theorem renderWeave_ignores_opacity_witness :
    renderWeave (fun _ _ => 9) 6 6
        ⟨3, 2, 1, 40, WeavePattern.twill, 25, 7⟩ (fun _ => 0)
      = renderWeave (fun _ _ => 9) 6 6
        ⟨3, 2, 1, 40, WeavePattern.twill, 90, 7⟩ (fun _ => 0) :=
  renderWeave_ignores_opacity (fun _ _ => 9) 6 6 (fun _ => 0)
    ⟨3, 2, 1, 40, WeavePattern.twill, 25, 7⟩
    ⟨3, 2, 1, 40, WeavePattern.twill, 90, 7⟩
    rfl rfl rfl rfl rfl rfl

/-- The per-frame interpolation helper of the preview loop:
`lerp(a, b) = a + (b - a) * t` with `t = 0.1`. -/
def lerp (a b : ℚ) : ℚ :=
  a + (b - a) * 0.1

/-- One frame of the animation loop's state update: the four numeric
fields move a tenth of the way to the target, `pattern` and `seed`
switch instantly, everything else is untouched. -/
def lerpStep (current target : ProcessorSettings) : ProcessorSettings :=
  { current with
    horizontalShift := lerp current.horizontalShift target.horizontalShift
    verticalShift := lerp current.verticalShift target.verticalShift
    scatterIntensity := lerp current.scatterIntensity target.scatterIntensity
    tileSize := lerp current.tileSize target.tileSize
    pattern := target.pattern
    seed := target.seed }

/-- C6: one interpolator step sends each numeric field to
`current + 0.1 * (target - current)`, copies `pattern` and `seed`
verbatim from the target, and leaves `opacity` unchanged. -/
theorem lerpStep_fields (c t : ProcessorSettings) :
    (lerpStep c t).horizontalShift
        = c.horizontalShift + 0.1 * (t.horizontalShift - c.horizontalShift)
      ∧ (lerpStep c t).verticalShift
        = c.verticalShift + 0.1 * (t.verticalShift - c.verticalShift)
      ∧ (lerpStep c t).scatterIntensity
        = c.scatterIntensity + 0.1 * (t.scatterIntensity - c.scatterIntensity)
      ∧ (lerpStep c t).tileSize
        = c.tileSize + 0.1 * (t.tileSize - c.tileSize)
      ∧ (lerpStep c t).pattern = t.pattern
      ∧ (lerpStep c t).seed = t.seed
      ∧ (lerpStep c t).opacity = c.opacity := by
  refine ⟨?_, ?_, ?_, ?_, rfl, rfl, rfl⟩ <;>
    simp only [lerpStep, lerp] <;> ring

lemma lerp_sub_target (a b : ℚ) : lerp a b - b = (9 / 10) * (a - b) := by
  simp only [lerp]
  ring

lemma lerp_iter_sub_target (b a : ℚ) (n : ℕ) :
    (fun x => lerp x b)^[n] a - b = (9 / 10) ^ n * (a - b) := by
  induction n with
  | zero => simp
  | succ n ih =>
      rw [Function.iterate_succ_apply', lerp_sub_target, ih]
      ring

lemma lerpStep_iter_h (tgt c : ProcessorSettings) (n : ℕ) :
    ((fun st => lerpStep st tgt)^[n] c).horizontalShift
      = (fun x => lerp x tgt.horizontalShift)^[n] c.horizontalShift := by
  induction n with
  | zero => rfl
  | succ n ih =>
      rw [Function.iterate_succ_apply', Function.iterate_succ_apply', ← ih]
      rfl

lemma lerpStep_iter_v (tgt c : ProcessorSettings) (n : ℕ) :
    ((fun st => lerpStep st tgt)^[n] c).verticalShift
      = (fun x => lerp x tgt.verticalShift)^[n] c.verticalShift := by
  induction n with
  | zero => rfl
  | succ n ih =>
      rw [Function.iterate_succ_apply', Function.iterate_succ_apply', ← ih]
      rfl

lemma lerpStep_iter_sc (tgt c : ProcessorSettings) (n : ℕ) :
    ((fun st => lerpStep st tgt)^[n] c).scatterIntensity
      = (fun x => lerp x tgt.scatterIntensity)^[n] c.scatterIntensity := by
  induction n with
  | zero => rfl
  | succ n ih =>
      rw [Function.iterate_succ_apply', Function.iterate_succ_apply', ← ih]
      rfl

lemma lerpStep_iter_ts (tgt c : ProcessorSettings) (n : ℕ) :
    ((fun st => lerpStep st tgt)^[n] c).tileSize
      = (fun x => lerp x tgt.tileSize)^[n] c.tileSize := by
  induction n with
  | zero => rfl
  | succ n ih =>
      rw [Function.iterate_succ_apply', Function.iterate_succ_apply', ← ih]
      rfl

lemma lerp_iter_dist (b a : ℚ) (n : ℕ) :
    |(fun x => lerp x b)^[n + 1] a - b| = (9 / 10) * |(fun x => lerp x b)^[n] a - b| := by
  rw [Function.iterate_succ_apply', lerp_sub_target, abs_mul]
  norm_num

lemma lerp_iter_ne (b a : ℚ) (n : ℕ) (hne : a ≠ b) :
    (fun x => lerp x b)^[n] a ≠ b := by
  intro hc
  have h := lerp_iter_sub_target b a n
  rw [hc] at h
  have h9 : ((9 : ℚ) / 10) ^ n ≠ 0 := pow_ne_zero n (by norm_num)
  have : a - b = 0 := by
    have := h.symm
    rcases mul_eq_zero.mp (by linarith [this] : (9 / 10 : ℚ) ^ n * (a - b) = 0) with h0 | h0
    · exact absurd h0 h9
    · exact h0
  exact hne (by linarith)

lemma lerp_iter_strict (b a : ℚ) (n : ℕ) (hne : a ≠ b) :
    |(fun x => lerp x b)^[n + 1] a - b| < |(fun x => lerp x b)^[n] a - b| := by
  rw [lerp_iter_dist]
  have hpos : 0 < |(fun x => lerp x b)^[n] a - b| :=
    abs_pos.mpr (sub_ne_zero.mpr (lerp_iter_ne b a n hne))
  nlinarith

/-- C9: with a fixed target, every numeric field of the iterated
interpolator decays exponentially toward its target — the signed
distance after `n` steps is `(9/10)^n` times the initial one, so it
keeps its sign (no overshoot), each step multiplies the absolute
distance by `9/10` (strict decrease while nonzero), and a field that
starts away from its target never reaches it in finitely many steps. -/
theorem lerpStep_convergence (tgt c : ProcessorSettings) (n : ℕ) :
    (((fun st => lerpStep st tgt)^[n] c).horizontalShift - tgt.horizontalShift
        = (9 / 10) ^ n * (c.horizontalShift - tgt.horizontalShift)
      ∧ ((fun st => lerpStep st tgt)^[n] c).verticalShift - tgt.verticalShift
        = (9 / 10) ^ n * (c.verticalShift - tgt.verticalShift)
      ∧ ((fun st => lerpStep st tgt)^[n] c).scatterIntensity - tgt.scatterIntensity
        = (9 / 10) ^ n * (c.scatterIntensity - tgt.scatterIntensity)
      ∧ ((fun st => lerpStep st tgt)^[n] c).tileSize - tgt.tileSize
        = (9 / 10) ^ n * (c.tileSize - tgt.tileSize))
    ∧ (c.horizontalShift ≠ tgt.horizontalShift →
        |((fun st => lerpStep st tgt)^[n + 1] c).horizontalShift - tgt.horizontalShift|
          < |((fun st => lerpStep st tgt)^[n] c).horizontalShift - tgt.horizontalShift|
        ∧ ((fun st => lerpStep st tgt)^[n] c).horizontalShift ≠ tgt.horizontalShift)
    ∧ (c.verticalShift ≠ tgt.verticalShift →
        |((fun st => lerpStep st tgt)^[n + 1] c).verticalShift - tgt.verticalShift|
          < |((fun st => lerpStep st tgt)^[n] c).verticalShift - tgt.verticalShift|
        ∧ ((fun st => lerpStep st tgt)^[n] c).verticalShift ≠ tgt.verticalShift)
    ∧ (c.scatterIntensity ≠ tgt.scatterIntensity →
        |((fun st => lerpStep st tgt)^[n + 1] c).scatterIntensity - tgt.scatterIntensity|
          < |((fun st => lerpStep st tgt)^[n] c).scatterIntensity - tgt.scatterIntensity|
        ∧ ((fun st => lerpStep st tgt)^[n] c).scatterIntensity ≠ tgt.scatterIntensity)
    ∧ (c.tileSize ≠ tgt.tileSize →
        |((fun st => lerpStep st tgt)^[n + 1] c).tileSize - tgt.tileSize|
          < |((fun st => lerpStep st tgt)^[n] c).tileSize - tgt.tileSize|
        ∧ ((fun st => lerpStep st tgt)^[n] c).tileSize ≠ tgt.tileSize) := by
  refine ⟨⟨?_, ?_, ?_, ?_⟩, ?_, ?_, ?_, ?_⟩
  · rw [lerpStep_iter_h]
    exact lerp_iter_sub_target _ _ n
  · rw [lerpStep_iter_v]
    exact lerp_iter_sub_target _ _ n
  · rw [lerpStep_iter_sc]
    exact lerp_iter_sub_target _ _ n
  · rw [lerpStep_iter_ts]
    exact lerp_iter_sub_target _ _ n
  · intro hne
    rw [lerpStep_iter_h, lerpStep_iter_h]
    exact ⟨lerp_iter_strict _ _ n hne, lerp_iter_ne _ _ n hne⟩
  · intro hne
    rw [lerpStep_iter_v, lerpStep_iter_v]
    exact ⟨lerp_iter_strict _ _ n hne, lerp_iter_ne _ _ n hne⟩
  · intro hne
    rw [lerpStep_iter_sc, lerpStep_iter_sc]
    exact ⟨lerp_iter_strict _ _ n hne, lerp_iter_ne _ _ n hne⟩
  · intro hne
    rw [lerpStep_iter_ts, lerpStep_iter_ts]
    exact ⟨lerp_iter_strict _ _ n hne, lerp_iter_ne _ _ n hne⟩

/-- Witness for C9 at one step from a state one unit away on the
horizontal-shift field. -/
theorem lerpStep_convergence_witness :
    ((fun st => lerpStep st ⟨11, 21, 31, 41, WeavePattern.basket, 50, 1⟩)^[1]
        ⟨10, 20, 30, 40, WeavePattern.plain, 50, 0⟩).horizontalShift
      ≠ (⟨11, 21, 31, 41, WeavePattern.basket, 50, 1⟩ : ProcessorSettings).horizontalShift :=
  ((lerpStep_convergence ⟨11, 21, 31, 41, WeavePattern.basket, 50, 1⟩
      ⟨10, 20, 30, 40, WeavePattern.plain, 50, 0⟩ 1).2.1 (by norm_num)).2

/-- Counterexample to C10: at `tileSize = 0` on a raster of width 10 the
engine's grid partition does not use the supplied tile size — the
engine's own clamp `Math.max(2, tileSize)` kicks in, giving 5 columns
where the as-supplied formula gives `ceil(10/0)`. -/
theorem gridCount_clamp_counterexample :
    gridCount 10 0 ≠ specGridCount 10 0 := by
  have h1 : gridCount 10 0 = 5 := by
    unfold gridCount
    norm_num
    rfl
  have h2 : specGridCount 10 0 = 0 := by
    unfold specGridCount
    norm_num
  rw [h1, h2]
  norm_num

/-- C10 as amended: the engine itself clamps the tile size to
`max 2 tileSize` before partitioning the grid — so the partition agrees
with the as-supplied formula exactly when `tileSize ≥ 2`, and for any
smaller (zero or negative) tile size it uses 2 instead of the supplied
value.  (`renderWeave` computes its grid through `gridCount`.) -/
theorem gridCount_clamp_spec (len : ℕ) (tileSize : ℚ) :
    (2 ≤ tileSize → gridCount len tileSize = specGridCount len tileSize)
      ∧ (tileSize < 2 → gridCount len tileSize = (⌈(len : ℚ) / 2⌉).toNat) := by
  constructor
  · intro h
    unfold gridCount specGridCount
    rw [max_eq_right h]
  · intro h
    unfold gridCount
    rw [max_eq_left h.le]

/-- Witness for C10 (amended) on both sides of the clamp. -/
theorem gridCount_clamp_spec_witness :
    gridCount 10 4 = specGridCount 10 4
      ∧ gridCount 10 (-3) = (⌈(10 : ℚ) / 2⌉).toNat :=
  ⟨(gridCount_clamp_spec 10 4).1 (by norm_num),
   (gridCount_clamp_spec 10 (-3)).2 (by norm_num)⟩

/-- Per-row horizontal displacement of the plain pattern with an integer
shift `k`: rows with even index move by `+k`, odd rows by `-k`. -/
def rowShiftInt (k : ℤ) (y : ℕ) : ℤ :=
  if y % 2 = 0 then k else -k

/-- Source column feeding destination pixel `(p, q)` under the plain
pattern with integer shift `k`, tile size `t` and no vertical shift or
scatter: the toroidal inverse of the row shift of `p`'s tile row. -/
def srcCol (W t : ℕ) (k : ℤ) (p q : ℕ) : ℕ :=
  (((p : ℤ) - rowShiftInt k (q / t)) % W).toNat

/-- Sum of all pixel samples over the raster's integer grid. -/
def checksum (W H : ℕ) (c : Canvas) : ℕ :=
  ∑ q ∈ Finset.range H, ∑ p ∈ Finset.range W, c (p : ℚ) (q : ℚ)

lemma int_offset_unique (W a b c : ℤ) (hW : 0 < W) (h : a - b = W * c)
    (ha0 : 0 ≤ a) (haW : a < W) (hb0 : 0 ≤ b) (hbW : b < W) : a = b := by
  have hc1 : c < 1 := by
    by_contra hcon
    push_neg at hcon
    have : W * 1 ≤ W * c := mul_le_mul_of_nonneg_left hcon hW.le
    linarith
  have hc2 : -1 < c := by
    by_contra hcon
    push_neg at hcon
    have : W * c ≤ W * (-1) := mul_le_mul_of_nonneg_left hcon hW.le
    linarith
  have hc0 : c = 0 := by omega
  rw [hc0] at h
  linarith

lemma int_emod_eq_of (W x v c : ℤ) (hW : 0 < W) (h0 : 0 ≤ v) (hvW : v < W)
    (hc : x = v + W * c) : x % W = v := by
  have hd := int_emod_decomp x W
  have h1 := Int.emod_nonneg x hW.ne'
  have h2 := Int.emod_lt_of_pos x hW
  refine int_offset_unique W (x % W) v (c - x / W) hW ?_ h1 h2 h0 hvW
  rw [hd]
  linear_combination hc

lemma nat_div_eq_iff_bounds (t y q : ℕ) (ht : 0 < t) :
    q / t = y ↔ y * t ≤ q ∧ q < y * t + t := by
  constructor
  · intro h
    subst h
    refine ⟨Nat.div_mul_le_self q t, ?_⟩
    have hmod := Nat.mod_lt q ht
    have hdm := Nat.div_add_mod q t
    rw [Nat.mul_comm t (q / t)] at hdm
    omega
  · rintro ⟨h1, h2⟩
    exact Nat.div_eq_of_lt_le h1 (by rw [Nat.succ_mul]; omega)

lemma grid_mul_lt (L t y : ℕ) (ht : 2 ≤ t) (hy : y < gridCount L (t : ℚ)) :
    (y : ℚ) * (t : ℚ) < (L : ℚ) := by
  have htq : (0 : ℚ) < (t : ℚ) := by exact_mod_cast (by omega : 0 < t)
  have hmax : max (2 : ℚ) (t : ℚ) = (t : ℚ) := max_eq_right (by exact_mod_cast ht)
  unfold gridCount at hy
  rw [hmax] at hy
  have h1 : (y : ℤ) < ⌈(L : ℚ) / (t : ℚ)⌉ := Int.lt_toNat.mp hy
  have h2 : ((y : ℤ) : ℚ) < (L : ℚ) / (t : ℚ) := Int.lt_ceil.mp h1
  have h3 : (y : ℚ) < (L : ℚ) / (t : ℚ) := by exact_mod_cast h2
  calc (y : ℚ) * (t : ℚ) < ((L : ℚ) / (t : ℚ)) * (t : ℚ) :=
        mul_lt_mul_of_pos_right h3 htq
  _ = (L : ℚ) := div_mul_cancel₀ _ htq.ne'

lemma grid_cover (L t u : ℕ) (ht : 2 ≤ t) (hu : u < L) :
    u / t < gridCount L (t : ℚ) := by
  have htq : (0 : ℚ) < (t : ℚ) := by exact_mod_cast (by omega : 0 < t)
  have hmax : max (2 : ℚ) (t : ℚ) = (t : ℚ) := max_eq_right (by exact_mod_cast ht)
  have h1 : ((u / t : ℕ) : ℚ) * (t : ℚ) ≤ (u : ℚ) := by
    exact_mod_cast Nat.div_mul_le_self u t
  have h2 : ((u / t : ℕ) : ℚ) < (L : ℚ) / (t : ℚ) := by
    rw [lt_div_iff htq]
    have : (u : ℚ) < (L : ℚ) := by exact_mod_cast hu
    linarith
  have h3 : ((u / t : ℕ) : ℤ) < ⌈(L : ℚ) / (t : ℚ)⌉ :=
    Int.lt_ceil.mpr (by exact_mod_cast h2)
  unfold gridCount
  rw [hmax]
  exact Int.lt_toNat.mpr h3

lemma covers_int_iff (W t x : ℕ) (kc p : ℤ)
    (hW : 0 < W) (ht : 0 < t) (hxt : (x : ℤ) * t < W)
    (hp0 : 0 ≤ p) (hpW : p < W) :
    (((((x : ℤ) * t + kc) % W ≤ p ∧ p < ((x : ℤ) * t + kc) % W + min (t : ℤ) ((W : ℤ) - x * t))
        ∨ (((x : ℤ) * t + kc) % W ≤ p + W
            ∧ p + W < ((x : ℤ) * t + kc) % W + min (t : ℤ) ((W : ℤ) - x * t)))
      ↔ ((x : ℤ) * t ≤ (p - kc) % W
          ∧ (p - kc) % W < (x : ℤ) * t + min (t : ℤ) ((W : ℤ) - x * t)))
    ∧ ((((x : ℤ) * t + kc) % W ≤ p ∧ p < ((x : ℤ) * t + kc) % W + min (t : ℤ) ((W : ℤ) - x * t)) →
        (p - kc) % W = (x : ℤ) * t + (p - ((x : ℤ) * t + kc) % W))
    ∧ ((((x : ℤ) * t + kc) % W ≤ p + W
          ∧ p + W < ((x : ℤ) * t + kc) % W + min (t : ℤ) ((W : ℤ) - x * t)) →
        (p - kc) % W = (x : ℤ) * t + (p - ((x : ℤ) * t + kc) % W + W)) := by
  have hWZ : (0 : ℤ) < (W : ℤ) := by exact_mod_cast hW
  set m : ℤ := (x : ℤ) * t + kc with hm
  set d : ℤ := m % W with hdm
  set wz : ℤ := min (t : ℤ) ((W : ℤ) - x * t) with hwz
  have hd0 : 0 ≤ d := Int.emod_nonneg m hWZ.ne'
  have hdW : d < W := Int.emod_lt_of_pos m hWZ
  have hddec := int_emod_decomp m (W : ℤ)
  have hw0 : 0 < wz := by
    rw [hwz]
    apply lt_min
    · exact_mod_cast ht
    · omega
  have hwle : (x : ℤ) * t + wz ≤ W := by
    have : wz ≤ (W : ℤ) - x * t := min_le_right _ _
    omega
  have hxt0 : (0 : ℤ) ≤ (x : ℤ) * t := by positivity
  have hd2 : d = m - (W : ℤ) * (m / W) := by
    rw [hdm, hddec]
  have hval1 : (d ≤ p ∧ p < d + wz) → (p - kc) % W = (x : ℤ) * t + (p - d) := by
    rintro ⟨ha, hb⟩
    apply int_emod_eq_of (W : ℤ) _ _ (-(m / W)) hWZ (by omega) (by omega)
    linear_combination hd2 + hm
  have hval2 : (d ≤ p + W ∧ p + W < d + wz) →
      (p - kc) % W = (x : ℤ) * t + (p - d + W) := by
    rintro ⟨ha, hb⟩
    apply int_emod_eq_of (W : ℤ) _ _ (-(m / W) - 1) hWZ (by omega) (by omega)
    linear_combination hd2 + hm
  refine ⟨⟨?_, ?_⟩, hval1, hval2⟩
  · rintro (hcase | hcase)
    · rw [hval1 hcase]
      omega
    · rw [hval2 hcase]
      omega
  · rintro ⟨hu1, hu2⟩
    set u : ℤ := (p - kc) % W with hu
    have hu0 : 0 ≤ u := Int.emod_nonneg _ hWZ.ne'
    have huW : u < W := Int.emod_lt_of_pos _ hWZ
    have hudec := int_emod_decomp (p - kc) (W : ℤ)
    -- p - (d + (u - x*t)) is a multiple of W
    have hkey : p - (d + (u - (x : ℤ) * t)) = W * ((p - kc) / W + m / W) := by
      have h1 : u = p - kc - W * ((p - kc) / W) := by
        rw [hu, hudec]
      have h2 : d = m - W * (m / W) := by
        rw [hdm, hddec]
      linear_combination h1 * (-1) + h2 * (-1) + hm * (-1)
    set cc : ℤ := (p - kc) / W + m / W with hcc
    have hjb : 0 ≤ u - (x : ℤ) * t := by omega
    have hjw : u - (x : ℤ) * t < wz := by omega
    have hcbound1 : W * cc < W := by omega
    have hcbound2 : -(2 * W) < W * cc := by omega
    have hc1 : cc < 1 := by
      by_contra hcon
      push_neg at hcon
      have : W * 1 ≤ W * cc := mul_le_mul_of_nonneg_left hcon hWZ.le
      omega
    have hc2 : -2 < cc := by
      by_contra hcon
      push_neg at hcon
      have : W * cc ≤ W * (-2) := mul_le_mul_of_nonneg_left hcon hWZ.le
      omega
    interval_cases cc
    · right
      constructor <;> omega
    · left
      constructor <;> omega

lemma sum_emod_shift (W : ℕ) (hW : 0 < W) (a : ℤ) (f : ℕ → ℕ) :
    ∑ p ∈ Finset.range W, f ((((p : ℤ) - a) % W).toNat)
      = ∑ p ∈ Finset.range W, f p := by
  have hWZ : (0 : ℤ) < (W : ℤ) := by exact_mod_cast hW
  refine Finset.sum_nbij' (fun p => (((p : ℤ) - a) % W).toNat)
      (fun p => (((p : ℤ) + a) % W).toNat) ?_ ?_ ?_ ?_ ?_
  · intro p _
    have h1 := Int.emod_nonneg ((p : ℤ) - a) hWZ.ne'
    have h2 := Int.emod_lt_of_pos ((p : ℤ) - a) hWZ
    simp only [Finset.mem_range]
    omega
  · intro p _
    have h1 := Int.emod_nonneg ((p : ℤ) + a) hWZ.ne'
    have h2 := Int.emod_lt_of_pos ((p : ℤ) + a) hWZ
    simp only [Finset.mem_range]
    omega
  · intro p hp
    simp only [Finset.mem_range] at hp
    have h1 := Int.emod_nonneg ((p : ℤ) - a) hWZ.ne'
    have hdec := int_emod_decomp ((p : ℤ) - a) (W : ℤ)
    have hcast : (((((p : ℤ) - a) % (W : ℤ)).toNat : ℤ)) = ((p : ℤ) - a) % (W : ℤ) :=
      Int.toNat_of_nonneg h1
    have hkey : (((((p : ℤ) - a) % (W : ℤ)).toNat : ℤ) + a) % (W : ℤ) = (p : ℤ) := by
      rw [hcast]
      apply int_emod_eq_of (W : ℤ) _ _ (-(((p : ℤ) - a) / (W : ℤ))) hWZ
        (by exact_mod_cast Nat.zero_le p) (by exact_mod_cast hp)
      linear_combination hdec
    show (((((((p : ℤ) - a) % (W : ℤ)).toNat : ℤ)) + a) % (W : ℤ)).toNat = p
    omega
  · intro p hp
    simp only [Finset.mem_range] at hp
    have h1 := Int.emod_nonneg ((p : ℤ) + a) hWZ.ne'
    have hdec := int_emod_decomp ((p : ℤ) + a) (W : ℤ)
    have hcast : (((((p : ℤ) + a) % (W : ℤ)).toNat : ℤ)) = ((p : ℤ) + a) % (W : ℤ) :=
      Int.toNat_of_nonneg h1
    have hkey : (((((p : ℤ) + a) % (W : ℤ)).toNat : ℤ) - a) % (W : ℤ) = (p : ℤ) := by
      rw [hcast]
      apply int_emod_eq_of (W : ℤ) _ _ (-(((p : ℤ) + a) / (W : ℤ))) hWZ
        (by exact_mod_cast Nat.zero_le p) (by exact_mod_cast hp)
      linear_combination hdec
    show (((((((p : ℤ) + a) % (W : ℤ)).toNat : ℤ)) - a) % (W : ℤ)).toNat = p
    omega
  · intro p _
    rfl

lemma tileStep_rowshift_apply
    (img : Canvas) (W H t : ℕ) (k : ℤ) (s : ProcessorSettings) (sinF : ℚ → ℚ)
    (ht : 2 ≤ t) (hts : s.tileSize = (t : ℚ))
    (hpat : s.pattern = WeavePattern.plain)
    (hsc : s.scatterIntensity = 0) (hv : s.verticalShift = 0)
    (hh : s.horizontalShift = (k : ℚ)) (hW : 0 < W) (hH : 0 < H)
    (x y : ℕ) (hx : x < gridCount W (t : ℚ)) (hy : y < gridCount H (t : ℚ))
    (c : Canvas) (p q : ℕ) (hp : p < W) (hq : q < H) :
    tileStep (drawImage clearCanvas img W H 0 0 (W : ℚ) (H : ℚ) 0 0) W H s sinF
        (max 2 s.tileSize) x y c (p : ℚ) (q : ℚ)
      = if q / t = y ∧ srcCol W t k p q / t = x
        then img ((srcCol W t k p q : ℕ) : ℚ) ((q : ℕ) : ℚ)
        else c (p : ℚ) (q : ℚ) := by
  have ht0 : 0 < t := by omega
  have htq : (0 : ℚ) < (t : ℚ) := by exact_mod_cast ht0
  have hWQ : (0 : ℚ) < (W : ℚ) := by exact_mod_cast hW
  have hHQ : (0 : ℚ) < (H : ℚ) := by exact_mod_cast hH
  have hWZ : (0 : ℤ) < (W : ℤ) := by exact_mod_cast hW
  have hts2 : max 2 s.tileSize = (t : ℚ) := by
    rw [hts]
    exact max_eq_right (by exact_mod_cast ht)
  have hsyH : (y : ℚ) * (t : ℚ) < (H : ℚ) := grid_mul_lt H t y ht hy
  have hsxW : (x : ℚ) * (t : ℚ) < (W : ℚ) := grid_mul_lt W t x ht hx
  have hxtW : (x : ℤ) * (t : ℤ) < (W : ℤ) := by exact_mod_cast hsxW
  -- the scatter stage is inert at zero intensity
  have hscat : ∀ d : ℚ × ℚ, tileScatter s W H (t : ℚ) sinF x y d = d := by
    intro d
    simp only [tileScatter]
    rw [if_neg]
    rw [hsc]
    norm_num
    exact (pseudoRandom_mem sinF (x : ℚ) (y : ℚ) s.seed).1
  -- the pre-scatter destination of the tile
  have hparity : (x : ℚ) * (t : ℚ) + (k : ℚ) * (if y % 2 = 0 then (1 : ℚ) else -1)
      = (((x : ℤ) * (t : ℤ) + rowShiftInt k y : ℤ) : ℚ) := by
    unfold rowShiftInt
    by_cases hpar : y % 2 = 0
    · rw [if_pos hpar, if_pos hpar]
      push_cast
      ring
    · rw [if_neg hpar, if_neg hpar]
      push_cast
      ring
  have hpre : tilePreDest s W H (t : ℚ) x y
      = (((((x : ℤ) * (t : ℤ) + rowShiftInt k y) % (W : ℤ) : ℤ) : ℚ),
         (y : ℚ) * (t : ℚ)) := by
    simp only [tilePreDest]
    rw [hpat]
    simp only [getShiftFactors]
    rw [hv, hh, zero_mul, add_zero]
    rw [wrapCoord_eq_self ((y : ℚ) * (t : ℚ)) (H : ℚ) hHQ (by positivity) hsyH]
    rw [hparity, wrapCoord_intCast _ W hW]
  simp only [tileStep]
  rw [hts2, hscat, hpre]
  dsimp only
  set dE : ℤ := ((x : ℤ) * (t : ℤ) + rowShiftInt k y) % (W : ℤ) with hdE
  have hd0 : 0 ≤ dE := Int.emod_nonneg _ hWZ.ne'
  have hdWZ : dE < (W : ℤ) := Int.emod_lt_of_pos _ hWZ
  have hdx0 : (0 : ℚ) ≤ ((dE : ℤ) : ℚ) := by exact_mod_cast hd0
  have hdxW : ((dE : ℤ) : ℚ) < (W : ℚ) := by exact_mod_cast hdWZ
  have hw0 : (0 : ℚ) < min (t : ℚ) ((W : ℚ) - (x : ℚ) * (t : ℚ)) :=
    lt_min htq (by linarith)
  have hwW : min (t : ℚ) ((W : ℚ) - (x : ℚ) * (t : ℚ)) ≤ (W : ℚ) := by
    have h1 : min (t : ℚ) ((W : ℚ) - (x : ℚ) * (t : ℚ)) ≤ (W : ℚ) - (x : ℚ) * (t : ℚ) :=
      min_le_right _ _
    have h2 : (0 : ℚ) ≤ (x : ℚ) * (t : ℚ) := by positivity
    linarith
  have hh0 : (0 : ℚ) < min (t : ℚ) ((H : ℚ) - (y : ℚ) * (t : ℚ)) :=
    lt_min htq (by linarith)
  have hhH : min (t : ℚ) ((H : ℚ) - (y : ℚ) * (t : ℚ)) ≤ (H : ℚ) := by
    have h1 : min (t : ℚ) ((H : ℚ) - (y : ℚ) * (t : ℚ)) ≤ (H : ℚ) - (y : ℚ) * (t : ℚ) :=
      min_le_right _ _
    have h2 : (0 : ℚ) ≤ (y : ℚ) * (t : ℚ) := by positivity
    linarith
  have hp0 : (0 : ℚ) ≤ (p : ℚ) := by positivity
  have hpW : (p : ℚ) < (W : ℚ) := by exact_mod_cast hp
  have hq0 : (0 : ℚ) ≤ (q : ℚ) := by positivity
  have hqH : (q : ℚ) < (H : ℚ) := by exact_mod_cast hq
  rw [drawWrapped_apply c (drawImage clearCanvas img W H 0 0 (W : ℚ) (H : ℚ) 0 0)
      W H ((x : ℚ) * (t : ℚ)) ((y : ℚ) * (t : ℚ))
      (min (t : ℚ) ((W : ℚ) - (x : ℚ) * (t : ℚ)))
      (min (t : ℚ) ((H : ℚ) - (y : ℚ) * (t : ℚ)))
      ((dE : ℤ) : ℚ) ((y : ℚ) * (t : ℚ)) (p : ℚ) (q : ℚ)
      hdx0 hdxW (by positivity) hsyH hw0 hwW hh0 hhH hp0 hpW hq0 hqH]
  -- vertical coverage is exactly membership in tile row y
  have hcovy : covers H ((y : ℚ) * (t : ℚ))
      (min (t : ℚ) ((H : ℚ) - (y : ℚ) * (t : ℚ))) (q : ℚ) ↔ q / t = y := by
    constructor
    · rintro (hc | hc)
      · have h1 : (y : ℚ) * (t : ℚ) ≤ (q : ℚ) := hc.1
        have h2 : (q : ℚ) < (y : ℚ) * (t : ℚ) + (t : ℚ) := by
          have := hc.2
          have hmin : min (t : ℚ) ((H : ℚ) - (y : ℚ) * (t : ℚ)) ≤ (t : ℚ) := min_le_left _ _
          linarith
        have h1n : y * t ≤ q := by exact_mod_cast (by push_cast; linarith : ((y * t : ℕ) : ℚ) ≤ (q : ℚ))
        have h2n : q < y * t + t := by exact_mod_cast (by push_cast; linarith : ((q : ℕ) : ℚ) < ((y * t + t : ℕ) : ℚ))
        exact (nat_div_eq_iff_bounds t y q ht0).mpr ⟨h1n, h2n⟩
      · exfalso
        have h2 : (q : ℚ) + (H : ℚ) < (y : ℚ) * (t : ℚ)
            + min (t : ℚ) ((H : ℚ) - (y : ℚ) * (t : ℚ)) := hc.2
        have hmin : min (t : ℚ) ((H : ℚ) - (y : ℚ) * (t : ℚ))
            ≤ (H : ℚ) - (y : ℚ) * (t : ℚ) := min_le_right _ _
        linarith
    · intro hqy
      obtain ⟨h1n, h2n⟩ := (nat_div_eq_iff_bounds t y q ht0).mp hqy
      left
      constructor
      · have : ((y * t : ℕ) : ℚ) ≤ (q : ℚ) := by exact_mod_cast h1n
        push_cast at this
        linarith
      · have hlt1 : (q : ℚ) < (y : ℚ) * (t : ℚ) + (t : ℚ) := by
          have : ((q : ℕ) : ℚ) < ((y * t + t : ℕ) : ℚ) := by exact_mod_cast h2n
          push_cast at this
          linarith
        have hlt2 : (q : ℚ) < (y : ℚ) * (t : ℚ) + ((H : ℚ) - (y : ℚ) * (t : ℚ)) := by
          linarith
        have : (q : ℚ) - (y : ℚ) * (t : ℚ)
            < min (t : ℚ) ((H : ℚ) - (y : ℚ) * (t : ℚ)) :=
          lt_min (by linarith) (by linarith)
        linarith
  -- integer facts about the horizontal coverage
  have hpZ0 : (0 : ℤ) ≤ (p : ℤ) := by positivity
  have hpZW : (p : ℤ) < (W : ℤ) := by exact_mod_cast hp
  obtain ⟨hiffZ, hval1, hval2⟩ :=
    covers_int_iff W t x (rowShiftInt k y) (p : ℤ) hW ht0 hxtW hpZ0 hpZW
  have hwcast : min (t : ℚ) ((W : ℚ) - (x : ℚ) * (t : ℚ))
      = ((min (t : ℤ) ((W : ℤ) - (x : ℤ) * (t : ℤ)) : ℤ) : ℚ) := by
    rw [Int.cast_min]
    push_cast
    rfl
  have hcovers_cast : covers W ((dE : ℤ) : ℚ)
      (min (t : ℚ) ((W : ℚ) - (x : ℚ) * (t : ℚ))) (p : ℚ)
      ↔ ((dE ≤ (p : ℤ) ∧ (p : ℤ) < dE + min (t : ℤ) ((W : ℤ) - (x : ℤ) * (t : ℤ)))
          ∨ (dE ≤ (p : ℤ) + W
              ∧ (p : ℤ) + W < dE + min (t : ℤ) ((W : ℤ) - (x : ℤ) * (t : ℤ)))) := by
    unfold covers
    rw [hwcast]
    constructor
    · rintro (hc | hc)
      · exact Or.inl ⟨by exact_mod_cast hc.1, by exact_mod_cast hc.2⟩
      · exact Or.inr ⟨by exact_mod_cast hc.1, by exact_mod_cast hc.2⟩
    · rintro (hc | hc)
      · exact Or.inl ⟨by exact_mod_cast hc.1, by exact_mod_cast hc.2⟩
      · exact Or.inr ⟨by exact_mod_cast hc.1, by exact_mod_cast hc.2⟩
  have hu0 : (0 : ℤ) ≤ ((p : ℤ) - rowShiftInt k y) % (W : ℤ) :=
    Int.emod_nonneg _ hWZ.ne'
  have huW : ((p : ℤ) - rowShiftInt k y) % (W : ℤ) < (W : ℤ) :=
    Int.emod_lt_of_pos _ hWZ
  have hxtcast : ((x * t : ℕ) : ℤ) = (x : ℤ) * (t : ℤ) := by
    push_cast
    rfl
  -- horizontal coverage, within row y, is exactly tile column srcCol / t
  have hsrcZ : q / t = y →
      ((srcCol W t k p q : ℕ) : ℤ) = ((p : ℤ) - rowShiftInt k y) % (W : ℤ) := by
    intro hqy
    unfold srcCol
    rw [hqy]
    exact Int.toNat_of_nonneg hu0
  have hcovx : q / t = y →
      (covers W ((dE : ℤ) : ℚ)
          (min (t : ℚ) ((W : ℚ) - (x : ℚ) * (t : ℚ))) (p : ℚ)
        ↔ srcCol W t k p q / t = x) := by
    intro hqy
    have hsZ := hsrcZ hqy
    rw [hcovers_cast, hiffZ]
    have hbounds : ((x : ℤ) * (t : ℤ) ≤ ((p : ℤ) - rowShiftInt k y) % (W : ℤ)
          ∧ ((p : ℤ) - rowShiftInt k y) % (W : ℤ)
            < (x : ℤ) * (t : ℤ) + min (t : ℤ) ((W : ℤ) - (x : ℤ) * (t : ℤ)))
        ↔ (x * t ≤ srcCol W t k p q ∧ srcCol W t k p q < x * t + t) := by
      have hminle1 : min (t : ℤ) ((W : ℤ) - (x : ℤ) * (t : ℤ)) ≤ (t : ℤ) :=
        min_le_left _ _
      constructor
      · rintro ⟨h1, h2⟩
        constructor
        · omega
        · omega
      · rintro ⟨h1, h2⟩
        rcases min_choice (t : ℤ) ((W : ℤ) - (x : ℤ) * (t : ℤ)) with hm | hm
        · rw [hm]
          constructor
          · omega
          · omega
        · rw [hm]
          constructor
          · omega
          · omega
    rw [hbounds]
    exact (nat_div_eq_iff_bounds t x (srcCol W t k p q) ht0).symm
  -- assemble the conditional
  by_cases hqy : q / t = y
  · by_cases hux : srcCol W t k p q / t = x
    · have hcy : covers H ((y : ℚ) * (t : ℚ))
          (min (t : ℚ) ((H : ℚ) - (y : ℚ) * (t : ℚ))) (q : ℚ) := hcovy.mpr hqy
      have hcx : covers W ((dE : ℤ) : ℚ)
          (min (t : ℚ) ((W : ℚ) - (x : ℚ) * (t : ℚ))) (p : ℚ) := (hcovx hqy).mpr hux
      rw [if_pos ⟨hcx, hcy⟩, if_pos ⟨hqy, hux⟩]
      have hsZ := hsrcZ hqy
      have hcxZ := hcovers_cast.mp hcx
      have hyle : (y : ℚ) * (t : ℚ) ≤ (q : ℚ) := by
        obtain ⟨h1n, _⟩ := (nat_div_eq_iff_bounds t y q ht0).mp hqy
        have : ((y * t : ℕ) : ℚ) ≤ (q : ℚ) := by exact_mod_cast h1n
        push_cast at this
        linarith
      have hyoff : (y : ℚ) * (t : ℚ) + srcOff H ((y : ℚ) * (t : ℚ)) (q : ℚ) = (q : ℚ) := by
        simp only [srcOff]
        rw [if_pos hyle]
        ring
      have hwminW : min (t : ℤ) ((W : ℤ) - (x : ℤ) * (t : ℤ)) ≤ (W : ℤ) := by
        have h1 : min (t : ℤ) ((W : ℤ) - (x : ℤ) * (t : ℤ)) ≤ (W : ℤ) - (x : ℤ) * (t : ℤ) :=
          min_le_right _ _
        have h2 : (0 : ℤ) ≤ (x : ℤ) * (t : ℤ) := by positivity
        omega
      have hxoff : (x : ℚ) * (t : ℚ) + srcOff W ((dE : ℤ) : ℚ) (p : ℚ)
          = ((srcCol W t k p q : ℕ) : ℚ) := by
        simp only [srcOff]
        by_cases hdp : ((dE : ℤ) : ℚ) ≤ (p : ℚ)
        · rw [if_pos hdp]
          have hdpZ : dE ≤ (p : ℤ) := by exact_mod_cast hdp
          rcases hcxZ with hc | hc
          · have hv1 := hval1 hc
            rw [← hsZ] at hv1
            have : ((srcCol W t k p q : ℕ) : ℚ)
                = (((x : ℤ) * (t : ℤ) + ((p : ℤ) - dE) : ℤ) : ℚ) := by
              exact_mod_cast congrArg (fun z => ((z : ℤ) : ℚ)) hv1
            rw [this]
            push_cast
            ring
          · exfalso
            omega
        · rw [if_neg hdp]
          have hdpZ : ¬ dE ≤ (p : ℤ) := fun hcon => hdp (by exact_mod_cast hcon)
          rcases hcxZ with hc | hc
          · exfalso
            exact hdpZ hc.1
          · have hv2 := hval2 hc
            rw [← hsZ] at hv2
            have : ((srcCol W t k p q : ℕ) : ℚ)
                = (((x : ℤ) * (t : ℤ) + ((p : ℤ) - dE + W) : ℤ) : ℚ) := by
              exact_mod_cast congrArg (fun z => ((z : ℤ) : ℚ)) hv2
            rw [this]
            push_cast
            ring
      rw [hxoff, hyoff]
      have hsrcW : srcCol W t k p q < W := by
        have hsZ2 := hsrcZ hqy
        omega
      have hs0 : (0 : ℚ) ≤ ((srcCol W t k p q : ℕ) : ℚ) := by positivity
      have hsW : ((srcCol W t k p q : ℕ) : ℚ) < (W : ℚ) := by exact_mod_cast hsrcW
      simp only [drawImage, clearCanvas]
      rw [if_pos ⟨hs0, by linarith, hq0, by linarith, hs0, hsW, hq0, hqH⟩]
      norm_num
    · rw [if_neg (fun hc => hux ((hcovx hqy).mp hc.1)), if_neg (fun hc => hux hc.2)]
  · rw [if_neg (fun hc => hqy (hcovy.mp hc.2)), if_neg (fun hc => hqy hc.1)]

lemma srcCol_lt (W t : ℕ) (k : ℤ) (p q : ℕ) (hW : 0 < W) :
    srcCol W t k p q < W := by
  unfold srcCol
  have hWZ : (0 : ℤ) < (W : ℤ) := by exact_mod_cast hW
  have h1 := Int.emod_nonneg ((p : ℤ) - rowShiftInt k (q / t)) hWZ.ne'
  have h2 := Int.emod_lt_of_pos ((p : ℤ) - rowShiftInt k (q / t)) hWZ
  omega

lemma innerFold_rowshift
    (img : Canvas) (W H t : ℕ) (k : ℤ) (s : ProcessorSettings) (sinF : ℚ → ℚ)
    (ht : 2 ≤ t) (hts : s.tileSize = (t : ℚ))
    (hpat : s.pattern = WeavePattern.plain)
    (hsc : s.scatterIntensity = 0) (hv : s.verticalShift = 0)
    (hh : s.horizontalShift = (k : ℚ)) (hW : 0 < W) (hH : 0 < H)
    (y : ℕ) (hy : y < gridCount H (t : ℚ))
    (p q : ℕ) (hp : p < W) (hq : q < H) (X : ℕ) :
    X ≤ gridCount W (t : ℚ) → ∀ c : Canvas,
    ((List.range X).foldl
        (fun c2 x => tileStep (drawImage clearCanvas img W H 0 0 (W : ℚ) (H : ℚ) 0 0)
          W H s sinF (max 2 s.tileSize) x y c2) c) (p : ℚ) (q : ℚ)
      = if q / t = y ∧ srcCol W t k p q / t < X
        then img ((srcCol W t k p q : ℕ) : ℚ) ((q : ℕ) : ℚ)
        else c (p : ℚ) (q : ℚ) := by
  induction X with
  | zero =>
      intro _ c
      simp
  | succ X ih =>
      intro hX c
      simp only [List.range_succ, List.foldl_append, List.foldl_cons, List.foldl_nil]
      rw [tileStep_rowshift_apply img W H t k s sinF ht hts hpat hsc hv hh hW hH
          X y (by omega) hy _ p q hp hq]
      rw [ih (by omega) c]
      by_cases hqy : q / t = y
      · by_cases h1 : srcCol W t k p q / t = X
        · rw [if_pos ⟨hqy, h1⟩, if_pos ⟨hqy, by omega⟩]
        · by_cases h2 : srcCol W t k p q / t < X
          · rw [if_neg (fun hc => h1 hc.2), if_pos ⟨hqy, h2⟩, if_pos ⟨hqy, by omega⟩]
          · rw [if_neg (fun hc => h1 hc.2), if_neg (fun hc => h2 hc.2),
                if_neg (fun hc => (by omega : ¬ srcCol W t k p q / t < X + 1) hc.2)]
      · rw [if_neg (fun hc => hqy hc.1), if_neg (fun hc => hqy hc.1),
            if_neg (fun hc => hqy hc.1)]

lemma outerFold_rowshift
    (img : Canvas) (W H t : ℕ) (k : ℤ) (s : ProcessorSettings) (sinF : ℚ → ℚ)
    (ht : 2 ≤ t) (hts : s.tileSize = (t : ℚ))
    (hpat : s.pattern = WeavePattern.plain)
    (hsc : s.scatterIntensity = 0) (hv : s.verticalShift = 0)
    (hh : s.horizontalShift = (k : ℚ)) (hW : 0 < W) (hH : 0 < H)
    (p q : ℕ) (hp : p < W) (hq : q < H) (Y : ℕ) :
    Y ≤ gridCount H (t : ℚ) →
    ((List.range Y).foldl
        (fun c y => (List.range (gridCount W (t : ℚ))).foldl
          (fun c2 x => tileStep (drawImage clearCanvas img W H 0 0 (W : ℚ) (H : ℚ) 0 0)
            W H s sinF (max 2 s.tileSize) x y c2) c)
        clearCanvas) (p : ℚ) (q : ℚ)
      = if q / t < Y
        then img ((srcCol W t k p q : ℕ) : ℚ) ((q : ℕ) : ℚ)
        else 0 := by
  induction Y with
  | zero =>
      intro _
      simp [clearCanvas]
  | succ Y ihY =>
      intro hY
      simp only [List.range_succ, List.foldl_append, List.foldl_cons, List.foldl_nil]
      rw [innerFold_rowshift img W H t k s sinF ht hts hpat hsc hv hh hW hH
          Y (by omega) p q hp hq (gridCount W (t : ℚ)) (le_refl _) _]
      rw [ihY (by omega)]
      have hcols : srcCol W t k p q / t < gridCount W (t : ℚ) :=
        grid_cover W t (srcCol W t k p q) ht (srcCol_lt W t k p q hW)
      by_cases hqy : q / t = Y
      · rw [if_pos ⟨hqy, hcols⟩, if_pos (by omega)]
      · by_cases h2 : q / t < Y
        · rw [if_neg (fun hc => hqy hc.1), if_pos h2, if_pos (by omega)]
        · rw [if_neg (fun hc => hqy hc.1), if_neg h2, if_neg (by omega)]

/-- C7 as amended: under the plain pattern with zero scatter, *zero
vertical shift*, an integral horizontal shift and an integral tile size,
the render is a per-row toroidal permutation of the source pixels — each
destination pixel `(p, q)` holds exactly the source pixel
`((p - shift(row q)) mod width, q)` — and therefore the per-channel
checksum is preserved.  (The unrestricted claim is false: with both
shifts nonzero, tiles overlap and leave gaps — see the counterexample.) -/
theorem renderWeave_row_shift_conservation
    (img : Canvas) (W H t : ℕ) (k : ℤ) (s : ProcessorSettings) (sinF : ℚ → ℚ)
    (ht : 2 ≤ t) (hts : s.tileSize = (t : ℚ))
    (hpat : s.pattern = WeavePattern.plain)
    (hsc : s.scatterIntensity = 0) (hv : s.verticalShift = 0)
    (hh : s.horizontalShift = (k : ℚ)) (hW : 0 < W) (hH : 0 < H) :
    (∀ p q : ℕ, p < W → q < H →
        renderWeave img W H s sinF (p : ℚ) (q : ℚ)
          = img ((srcCol W t k p q : ℕ) : ℚ) ((q : ℕ) : ℚ))
      ∧ checksum W H (renderWeave img W H s sinF) = checksum W H img := by
  have hWZ : (0 : ℤ) < (W : ℤ) := by exact_mod_cast hW
  have hpix : ∀ p q : ℕ, p < W → q < H →
      renderWeave img W H s sinF (p : ℚ) (q : ℚ)
        = img ((srcCol W t k p q : ℕ) : ℚ) ((q : ℕ) : ℚ) := by
    intro p q hp hq
    simp only [renderWeave]
    by_cases hfast : |s.horizontalShift| < 0.5 ∧ |s.verticalShift| < 0.5
        ∧ s.scatterIntensity < 0.5
    · rw [if_pos hfast]
      have hk0 : k = 0 := by
        have habs := hfast.1
        rw [hh] at habs
        by_contra hne
        have h1 : (1 : ℤ) ≤ |k| := by
          rcases lt_or_gt_of_ne hne with hlt | hgt
          · rw [abs_of_neg hlt]
            omega
          · rw [abs_of_pos hgt]
            omega
        have h2 : (1 : ℚ) ≤ |(k : ℚ)| := by
          have : ((|k| : ℤ) : ℚ) = |(k : ℚ)| := by push_cast; rfl
          rw [← this]
          exact_mod_cast h1
        norm_num at habs
        linarith
      have hsrc : srcCol W t k p q = p := by
        unfold srcCol
        rw [hk0]
        have hrs : rowShiftInt 0 (q / t) = 0 := by
          unfold rowShiftInt
          by_cases hpar : q / t % 2 = 0
          · rw [if_pos hpar]
          · rw [if_neg hpar]
            norm_num
        rw [hrs, sub_zero]
        have := Int.emod_eq_of_lt (by positivity : (0 : ℤ) ≤ (p : ℤ))
          (by exact_mod_cast hp : (p : ℤ) < (W : ℤ))
        omega
      rw [hsrc]
      simp only [drawImage, clearCanvas]
      have hp0 : (0 : ℚ) ≤ (p : ℚ) := by positivity
      have hpW : (p : ℚ) < (W : ℚ) := by exact_mod_cast hp
      have hq0 : (0 : ℚ) ≤ (q : ℚ) := by positivity
      have hqH : (q : ℚ) < (H : ℚ) := by exact_mod_cast hq
      rw [if_pos ⟨hp0, by linarith, hq0, by linarith, hp0, hpW, hq0, hqH⟩]
      norm_num
    · rw [if_neg hfast]
      rw [show gridCount H s.tileSize = gridCount H (t : ℚ) from by rw [hts],
          show gridCount W s.tileSize = gridCount W (t : ℚ) from by rw [hts]]
      rw [outerFold_rowshift img W H t k s sinF ht hts hpat hsc hv hh hW hH
          p q hp hq (gridCount H (t : ℚ)) (le_refl _)]
      rw [if_pos (grid_cover H t q ht hq)]
  refine ⟨hpix, ?_⟩
  unfold checksum
  apply Finset.sum_congr rfl
  intro q hqmem
  have hq : q < H := Finset.mem_range.mp hqmem
  have hrow : ∀ p ∈ Finset.range W,
      renderWeave img W H s sinF (p : ℚ) (q : ℚ)
        = img ((srcCol W t k p q : ℕ) : ℚ) ((q : ℕ) : ℚ) := by
    intro p hpmem
    exact hpix p q (Finset.mem_range.mp hpmem) hq
  rw [Finset.sum_congr rfl hrow]
  have hshift := sum_emod_shift W hW (rowShiftInt k (q / t))
    (fun u => img ((u : ℕ) : ℚ) ((q : ℕ) : ℚ))
  simp only [srcCol]
  exact hshift

/-- Witness for C7 (amended): a 4×4 raster, tile size 2, horizontal
shift 1, plain pattern, no scatter — the checksum is preserved. -/
theorem renderWeave_row_shift_conservation_witness :
    checksum 4 4 (renderWeave (fun p q => if p + q ≤ 3 then 2 else 3) 4 4
        ⟨2, 1, 0, 0, WeavePattern.plain, 100, 5⟩ (fun _ => 0))
      = checksum 4 4 (fun p q => if p + q ≤ 3 then 2 else 3) :=
  (renderWeave_row_shift_conservation (fun p q => if p + q ≤ 3 then 2 else 3)
      4 4 2 1 ⟨2, 1, 0, 0, WeavePattern.plain, 100, 5⟩ (fun _ => 0)
      (by norm_num) (by norm_num) rfl rfl rfl (by norm_num)
      (by norm_num) (by norm_num)).2

/-- Configuration of the C7 counterexample: tile size 2, both shifts 1,
plain pattern, zero scatter. -/
def cexSettings : ProcessorSettings :=
  ⟨2, 1, 1, 0, WeavePattern.plain, 100, 0⟩

/-- Sine oracle of the counterexample. -/
def cexSin : ℚ → ℚ := fun _ => 0

/-- Source raster of the counterexample: every pixel sample is 1. -/
def cexImg : Canvas := fun _ _ => 1

/-- Counterexample to C7: on a 4×4 raster with the plain pattern, zero
scatter and shifts (1, 1), destination pixel (0, 1) holds the cleared
value 0 even though every source sample is 1 — so it was written by no
tile at all: the tile-to-destination mapping has gaps (and symmetric
double-writes), and neither the multiset of pixel values nor the
checksum is preserved. -/
theorem renderWeave_pixel_conservation_cex :
    renderWeave cexImg 4 4 cexSettings cexSin 0 1 = 0 := by
  have hfastneg : ¬ (|cexSettings.horizontalShift| < 0.5
      ∧ |cexSettings.verticalShift| < 0.5
      ∧ cexSettings.scatterIntensity < 0.5) := by
    norm_num [cexSettings]
  have hscat : ∀ (x y : ℕ) (d : ℚ × ℚ),
      tileScatter cexSettings 4 4 (max 2 cexSettings.tileSize) cexSin x y d = d := by
    intro x y d
    simp only [tileScatter]
    rw [if_neg]
    intro hc
    have h0 := (pseudoRandom_mem cexSin (x : ℚ) (y : ℚ) cexSettings.seed).1
    rw [show cexSettings.scatterIntensity / 100 = 0 from by norm_num [cexSettings]] at hc
    linarith
  have hpre00 : tilePreDest cexSettings 4 4 (max 2 cexSettings.tileSize) 0 0
      = (1, 1) := by
    simp only [tilePreDest, cexSettings, getShiftFactors]
    norm_num [wrapCoord, jsMod, jsTrunc, Int.ceil_neg]
  have hpre10 : tilePreDest cexSettings 4 4 (max 2 cexSettings.tileSize) 1 0
      = (3, 3) := by
    simp only [tilePreDest, cexSettings, getShiftFactors]
    norm_num [wrapCoord, jsMod, jsTrunc, Int.ceil_neg]
  have hpre01 : tilePreDest cexSettings 4 4 (max 2 cexSettings.tileSize) 0 1
      = (3, 3) := by
    simp only [tilePreDest, cexSettings, getShiftFactors]
    norm_num [wrapCoord, jsMod, jsTrunc, Int.ceil_neg]
  have hpre11 : tilePreDest cexSettings 4 4 (max 2 cexSettings.tileSize) 1 1
      = (1, 1) := by
    simp only [tilePreDest, cexSettings, getShiftFactors]
    norm_num [wrapCoord, jsMod, jsTrunc, Int.ceil_neg]
  have h00 : ∀ c : Canvas,
      tileStep (drawImage clearCanvas cexImg 4 4 0 0 ((4 : ℕ) : ℚ) ((4 : ℕ) : ℚ) 0 0)
        4 4 cexSettings cexSin (max 2 cexSettings.tileSize) 0 0 c 0 1 = c 0 1 := by
    intro c
    simp only [tileStep]
    rw [hscat, hpre00]
    dsimp only
    norm_num [cexSettings]
    rw [drawWrapped_apply c _ 4 4 0 0 2 2 1 1 0 1 (by norm_num) (by norm_num)
        (by norm_num) (by norm_num) (by norm_num) (by norm_num) (by norm_num)
        (by norm_num) (by norm_num) (by norm_num) (by norm_num) (by norm_num)]
    rw [if_neg (by norm_num [covers])]
  have h10 : ∀ c : Canvas,
      tileStep (drawImage clearCanvas cexImg 4 4 0 0 ((4 : ℕ) : ℚ) ((4 : ℕ) : ℚ) 0 0)
        4 4 cexSettings cexSin (max 2 cexSettings.tileSize) 1 0 c 0 1 = c 0 1 := by
    intro c
    simp only [tileStep]
    rw [hscat, hpre10]
    dsimp only
    norm_num [cexSettings]
    rw [drawWrapped_apply c _ 4 4 2 0 2 2 3 3 0 1 (by norm_num) (by norm_num)
        (by norm_num) (by norm_num) (by norm_num) (by norm_num) (by norm_num)
        (by norm_num) (by norm_num) (by norm_num) (by norm_num) (by norm_num)]
    rw [if_neg (by norm_num [covers])]
  have h01 : ∀ c : Canvas,
      tileStep (drawImage clearCanvas cexImg 4 4 0 0 ((4 : ℕ) : ℚ) ((4 : ℕ) : ℚ) 0 0)
        4 4 cexSettings cexSin (max 2 cexSettings.tileSize) 0 1 c 0 1 = c 0 1 := by
    intro c
    simp only [tileStep]
    rw [hscat, hpre01]
    dsimp only
    norm_num [cexSettings]
    rw [drawWrapped_apply c _ 4 4 0 2 2 2 3 3 0 1 (by norm_num) (by norm_num)
        (by norm_num) (by norm_num) (by norm_num) (by norm_num) (by norm_num)
        (by norm_num) (by norm_num) (by norm_num) (by norm_num) (by norm_num)]
    rw [if_neg (by norm_num [covers])]
  have h11 : ∀ c : Canvas,
      tileStep (drawImage clearCanvas cexImg 4 4 0 0 ((4 : ℕ) : ℚ) ((4 : ℕ) : ℚ) 0 0)
        4 4 cexSettings cexSin (max 2 cexSettings.tileSize) 1 1 c 0 1 = c 0 1 := by
    intro c
    simp only [tileStep]
    rw [hscat, hpre11]
    dsimp only
    norm_num [cexSettings]
    rw [drawWrapped_apply c _ 4 4 2 2 2 2 1 1 0 1 (by norm_num) (by norm_num)
        (by norm_num) (by norm_num) (by norm_num) (by norm_num) (by norm_num)
        (by norm_num) (by norm_num) (by norm_num) (by norm_num) (by norm_num)]
    rw [if_neg (by norm_num [covers])]
  simp only [renderWeave]
  rw [if_neg hfastneg]
  rw [show gridCount 4 cexSettings.tileSize = 2 from by
    simp only [gridCount, cexSettings]
    norm_num
    rfl]
  rw [show List.range 2 = [0, 1] from rfl]
  simp only [List.foldl_cons, List.foldl_nil]
  rw [h11, h01, h10, h00]
  rfl
